import Mathlib

/-!
# athenz-client-sidecar: certificate cache, TLS policy, token service, directory client

A shallow embedding of `service/hcc.go` (`getCertificate`, `update`,
`checkExpire`, `StartCertUpdater`) and of `service/udb.go` (`doRequest`,
`GetByGUID`), together with the parts of the Go standard library they call
(`strings.Split`, `strings.HasPrefix`, `strings.TrimPrefix`, `strconv.ParseInt`,
`time.Unix`, `Time.Add`, `Time.Before`, `Time.After`, `url.QueryEscape`), and
models of `service.NewTLSConfig`, `usecase.createNtokend` and `usecase.New`
written from the specification, followed by the properties that the
specification states.

Go strings are modelled as lists of characters, `int64` values as integers
wrapped explicitly into the signed 64-bit range, the `sync.Map` as a finite
lookup function, a `map[string]string` as its entries in `range` order, and
the outside world of a call (clock readings, token provider, HTTP client, XML
and JSON decoders, base64 decoder, environment and files) as explicit inputs.
-/

set_option autoImplicit false

set_option linter.dupNamespace false

namespace Sidecar

deriving instance DecidableEq for Except

/-! ## Go strings -/

/-- A Go string, as the list of its characters. -/
abbrev GoStr := List Char

/-- Inner loop of `strings.Split` for a one-character separator: `cur` holds the
characters of the field being read, in reverse. -/
def splitAux (sep : Char) : GoStr → GoStr → List GoStr
  | [], cur => [cur.reverse]
  | c :: cs, cur =>
    if c = sep then cur.reverse :: splitAux sep cs [] else splitAux sep cs (c :: cur)

/-- Go `strings.Split(s, sep)` for a one-character separator: the fields between
the separators, so always at least one field. -/
def stringsSplit (s : GoStr) (sep : Char) : List GoStr :=
  splitAux sep s []

/-- Go `strings.HasPrefix(s, p)`. -/
def stringsHasPrefix (s p : GoStr) : Bool :=
  p.isPrefixOf s

/-- Go `strings.TrimPrefix(s, p)`. -/
def stringsTrimPrefix (s p : GoStr) : GoStr :=
  if stringsHasPrefix s p then s.drop p.length else s

/-! ## 64-bit integers and `strconv` -/

def maxInt64 : Int := 2 ^ 63 - 1

def minInt64 : Int := -(2 ^ 63)

def maxUint64 : Nat := 2 ^ 64 - 1

/-- Membership in the range of Go `int64`. -/
def isInt64 (n : Int) : Prop :=
  minInt64 ≤ n ∧ n ≤ maxInt64

instance (n : Int) : Decidable (isInt64 n) := by
  unfold isInt64; exact inferInstance

/-- Two-complement wrap-around of an integer into the `int64` range, as Go
arithmetic on `int64` does. -/
def wrapInt64 (n : Int) : Int :=
  (n + 2 ^ 63) % 2 ^ 64 - 2 ^ 63

/-- The two `strconv` error kinds: `ErrSyntax` and `ErrRange`. -/
inductive NumErrKind where
  | errSyntax
  | errRange
  deriving DecidableEq, Repr

/-- Value of one character as a digit in `strconv.ParseUint`: digits and
letters are accepted by the scanner, everything else is a syntax error. -/
def digitVal (c : Char) : Option Nat :=
  if '0' ≤ c ∧ c ≤ '9' then some (c.toNat - '0'.toNat)
  else if 'a' ≤ c ∧ c ≤ 'z' then some (c.toNat - 'a'.toNat + 10)
  else if 'A' ≤ c ∧ c ≤ 'Z' then some (c.toNat - 'A'.toNat + 10)
  else none

/-- The digit loop of `strconv.ParseUint(s, 10, 64)`: `n` is the value read so
far. A character that is no decimal digit is a syntax error; a value that
leaves the `uint64` range is a range error, reported at once. -/
def parseUintLoop : GoStr → Nat → Except NumErrKind Nat
  | [], n => .ok n
  | c :: cs, n =>
    match digitVal c with
    | none => .error .errSyntax
    | some d =>
      if d ≥ 10 then .error .errSyntax
      else if n ≥ maxUint64 / 10 + 1 then .error .errRange
      else if n * 10 + d > maxUint64 then .error .errRange
      else parseUintLoop cs (n * 10 + d)

/-- Go `strconv.ParseUint(s, 10, 64)`. -/
def parseUint (s : GoStr) : Except NumErrKind Nat :=
  match s with
  | [] => .error .errSyntax
  | _ => parseUintLoop s 0

/-- Go `strconv.ParseInt(s, 10, 64)`: an optional sign, then `ParseUint`, then
the check against the signed range. -/
def parseInt (s : GoStr) : Except NumErrKind Int :=
  match s with
  | [] => .error .errSyntax
  | c :: cs =>
    let neg : Bool := c = '-'
    let rest : GoStr := if c = '+' ∨ c = '-' then cs else c :: cs
    match parseUint rest with
    | .error .errSyntax => .error .errSyntax
    | .error .errRange => .error .errRange
    | .ok un =>
      if !neg ∧ un ≥ 2 ^ 63 then .error .errRange
      else if neg ∧ un > 2 ^ 63 then .error .errRange
      else .ok (if neg then -(un : Int) else (un : Int))

/-- Decimal digit character of a number below ten. -/
def digitChar (d : Nat) : Char :=
  Char.ofNat ('0'.toNat + d)

/-- Decimal digits of a natural number, most significant first, prepended to
`acc`; `fuel` bounds the number of digits. -/
def natDecAux : Nat → Nat → GoStr → GoStr
  | 0, _, acc => acc
  | fuel + 1, n, acc =>
    if n < 10 then digitChar n :: acc
    else natDecAux fuel (n / 10) (digitChar (n % 10) :: acc)

/-- Decimal rendering of a natural number (`%d`, `strconv.Itoa`). -/
def natDec (n : Nat) : GoStr :=
  natDecAux (n + 1) n []

/-- Decimal rendering of an integer (`%d`, `strconv.FormatInt(n, 10)`). -/
def intDec (n : Int) : GoStr :=
  if n < 0 then '-' :: natDec n.natAbs else natDec n.natAbs

/-! ## `time.Time` -/

/-- Go `time.Duration`: a number of nanoseconds. -/
abbrev Duration := Int

def Nanosecond : Duration := 1
def Second : Duration := 1000000000 * Nanosecond
def Minute : Duration := 60 * Second
def Hour : Duration := 60 * Minute

/-- Seconds from January 1 of year 1 to the Unix epoch (`unixToInternal`). -/
def unixToInternal : Int := (1969 * 365 + 1969 / 4 - 1969 / 100 + 1969 / 400) * 86400

/-- Seconds from January 1 of year 1 to January 1 of 1885 (`wallToInternal`). -/
def wallToInternal : Int := (1884 * 365 + 1884 / 4 - 1884 / 100 + 1884 / 400) * 86400

/-- The location pointer of a `time.Time`: nil (UTC) or `time.Local`. -/
inductive Location where
  | utc
  | localLoc
  deriving DecidableEq, Repr

/-- A Go `time.Time`, by what its fields `wall`, `ext` and `loc` encode:
`sec` is the number of seconds since January 1 of year 1 (`t.sec()`), `nsec`
the nanoseconds within the second, `mono` the monotonic clock reading when the
`hasMonotonic` bit is set. Go's `==` on two times is equality of these fields. -/
structure Time where
  sec : Int
  nsec : Int
  mono : Option Int
  loc : Location
  deriving DecidableEq, Repr

/-- Go `time.Time{}`, the zero time: January 1 of year 1, 00:00:00 UTC. -/
def Time.zero : Time :=
  { sec := 0, nsec := 0, mono := none, loc := .utc }

/-- Go `time.Unix(v, 0)`: the addition of `unixToInternal` is `int64`
arithmetic and wraps. -/
def timeUnix (v : Int) : Time :=
  { sec := wrapInt64 (v + unixToInternal), nsec := 0, mono := none, loc := .localLoc }

/-- Go `t.Before(u)`: by the monotonic readings when both times carry one,
otherwise by seconds and then nanoseconds. -/
def Time.Before (t u : Time) : Bool :=
  match t.mono, u.mono with
  | some a, some b => decide (a < b)
  | _, _ => decide (t.sec < u.sec ∨ (t.sec = u.sec ∧ t.nsec < u.nsec))

/-- Go `t.After(u)`. -/
def Time.After (t u : Time) : Bool :=
  match t.mono, u.mono with
  | some a, some b => decide (a > b)
  | _, _ => decide (t.sec > u.sec ∨ (t.sec = u.sec ∧ t.nsec > u.nsec))

/-- Go `t.Add(d)`. The wall seconds of a time with a monotonic reading live in
a 33-bit field counted from 1885; when the sum leaves that field, or the
monotonic reading leaves `int64`, the result drops the monotonic reading. -/
def Time.Add (t : Time) (d : Duration) : Time :=
  let dsec0 : Int := Int.tdiv d 1000000000
  let nsec0 : Int := t.nsec + Int.tmod d 1000000000
  let dsec : Int := if nsec0 ≥ 1000000000 then dsec0 + 1 else if nsec0 < 0 then dsec0 - 1 else dsec0
  let nsec : Int :=
    if nsec0 ≥ 1000000000 then nsec0 - 1000000000 else if nsec0 < 0 then nsec0 + 1000000000 else nsec0
  match t.mono with
  | some m =>
    let wsec : Int := (t.sec - wallToInternal) + dsec
    if 0 ≤ wsec ∧ wsec ≤ 2 ^ 33 - 1 then
      let te : Int := wrapInt64 (m + d)
      if (d < 0 ∧ te > m) ∨ (d > 0 ∧ te < m) then
        { sec := t.sec + dsec, nsec := nsec, mono := none, loc := t.loc }
      else
        { sec := t.sec + dsec, nsec := nsec, mono := some te, loc := t.loc }
    else
      { sec := wrapInt64 (t.sec + dsec), nsec := nsec, mono := none, loc := t.loc }
  | none =>
    { sec := wrapInt64 (t.sec + dsec), nsec := nsec, mono := none, loc := t.loc }

/-! ## `hcc.checkExpire` -/

/-- The errors `hcc` functions return. -/
inductive GoError where
  /-- The package variable `ErrCertNotFound`. -/
  | errCertNotFound
  /-- A `*strconv.NumError` from `ParseInt`, with its input and kind. -/
  | numError (input : GoStr) (kind : NumErrKind)
  /-- The error of `fmt.Errorf("GET %s returned status code %d", u, code)`. -/
  | statusCode (u : GoStr) (code : Int)
  /-- An error handed back by a collaborator (URL parser, token provider,
  HTTP transport, XML decoder). -/
  | other (msg : GoStr)
  deriving DecidableEq, Repr

/-- The loop of `checkExpire` over the fields of the payload. -/
def checkExpireParts : List GoStr → Except GoError Time
  | [] => .ok Time.zero
  | part :: rest =>
    if stringsHasPrefix part "k=".toList then
      match parseInt (stringsTrimPrefix part "k=".toList) with
      | .error k => .error (.numError (stringsTrimPrefix part "k=".toList) k)
      | .ok v => .ok (timeUnix v)
    else checkExpireParts rest

/-- Go `(h *hcc).checkExpire(cert)`. -/
def checkExpire (cert : GoStr) : Except GoError Time :=
  checkExpireParts (stringsSplit cert ';')

/-! ## `url.QueryEscape` -/

/-- UTF-8 bytes of a code point. -/
def utf8Bytes (n : Nat) : List Nat :=
  if n < 128 then [n]
  else if n < 2048 then [192 + n / 64, 128 + n % 64]
  else if n < 65536 then [224 + n / 4096, 128 + n / 64 % 64, 128 + n % 64]
  else [240 + n / 262144, 128 + n / 4096 % 64, 128 + n / 64 % 64, 128 + n % 64]

/-- One upper-case hexadecimal digit (the table `"0123456789ABCDEF"`). -/
def upperHex (d : Nat) : Char :=
  if d < 10 then Char.ofNat ('0'.toNat + d) else Char.ofNat ('A'.toNat + (d - 10))

/-- Go `url.shouldEscape(c, encodeQueryComponent)`: everything but letters,
digits and `-`, `_`, `.`, `~` is escaped. -/
def shouldEscape (c : Char) : Bool :=
  if ('a' ≤ c ∧ c ≤ 'z') ∨ ('A' ≤ c ∧ c ≤ 'Z') ∨ ('0' ≤ c ∧ c ≤ '9') then false
  else if c = '-' ∨ c = '_' ∨ c = '.' ∨ c = '~' then false
  else true

/-- Escape of one character in `url.QueryEscape`: a space becomes `+`, an
escaped character becomes `%XX` for each of its bytes. -/
def escapeChar (c : Char) : GoStr :=
  if shouldEscape c then
    if c = ' ' then ['+']
    else (utf8Bytes c.toNat).flatMap (fun b => ['%', upperHex (b / 16), upperHex (b % 16)])
  else [c]

/-- Go `url.QueryEscape(s)`. -/
def queryEscape (s : GoStr) : GoStr :=
  s.flatMap escapeChar

/-! ## The certificate cache -/

/-- The `sync.Map` of `hcc.certs`, keyed and valued by strings: what `Load`
finds under each key. -/
abbrev SyncMap := GoStr → Option GoStr

/-- The zero `sync.Map{}`. -/
def SyncMap.empty : SyncMap :=
  fun _ => none

/-- Go `m.Load(key)`. -/
def SyncMap.Load (m : SyncMap) (key : GoStr) : Option GoStr :=
  m key

/-- Go `m.Store(key, value)`. -/
def SyncMap.Store (m : SyncMap) (key value : GoStr) : SyncMap :=
  fun k => if k = key then some value else m k

/-- The injected `TokenProvider func() (string, error)`. -/
abbrev TokenProvider := Unit → Except GoError GoStr

/-- The struct `hcc`. -/
structure Hcc where
  certs : SyncMap
  ip : GoStr
  hostname : GoStr
  token : TokenProvider
  nextExpire : Time
  lastRefreshed : Time

/-- The struct `certificate` of the XML response. -/
structure Certificate where
  AppID : GoStr
  Cert : GoStr
  deriving DecidableEq, Repr

/-- The struct `certificates` of the XML response. -/
structure Certificates where
  Hostname : GoStr
  Certificates : List Certificate
  deriving DecidableEq, Repr

/-- The fields of `config.HCC` that `NewHCC` reads. -/
structure ConfigHCC where
  IP : GoStr
  Hostname : GoStr

def zts : GoStr := "zts.athenz.yahoo.co.jp:4443/wsca/v1".toList

/-- Go `http.MethodGet`. -/
def MethodGet : GoStr := "GET".toList

/-- The name of the request header that carries the principal token. -/
def principalAuthHeader : GoStr := "Yahoo-Principal-Auth".toList

def defaultCertExpireTime : Duration := 30 * Minute

def ErrCertNotFound : GoError := GoError.errCertNotFound

/-- Go `NewHCC(cfg, prov)`; `now1` and `now2` are the two readings of
`time.Now()`. The error result is always nil. -/
def NewHCC (cfg : ConfigHCC) (prov : TokenProvider) (now1 now2 : Time) : Hcc × Option GoError :=
  ({ certs := SyncMap.empty
     ip := cfg.IP
     hostname := cfg.Hostname
     token := prov
     nextExpire := now1
     lastRefreshed := now2 }, none)

/-- Go `(h *hcc).getCertificate(appID)`: the payload and the error. -/
def getCertificate (h : Hcc) (appID : GoStr) : GoStr × Option GoError :=
  match h.certs.Load appID with
  | none => ([], some ErrCertNotFound)
  | some cert => (cert, none)

/-- Go `(h *hcc).GetCertProvider()`. -/
def GetCertProvider (h : Hcc) : GoStr → GoStr × Option GoError :=
  getCertificate h

/-! ## `hcc.update` -/

/-- An `http.Request` as `update` builds it. -/
structure Request where
  method : GoStr
  url : GoStr
  header : List (GoStr × GoStr)
  deriving DecidableEq, Repr

/-- An `http.Response` as `update` reads it: the status code and the outcome of
`xml.NewDecoder(res.Body).Decode(&certs)` on its body. -/
structure Response where
  StatusCode : Int
  decoded : Except GoError Certificates

/-- The outside world of one call of `update`: whether `http.NewRequest`
accepts the URL, what `http.DefaultClient.Do` answers, and the readings of
`time.Now()` at the three places that take one (the sentinel, the fallback
deadline, `lastRefreshed`). -/
structure World where
  newRequestErr : GoStr → Option GoError
  httpDo : Request → Except GoError Response
  nowSentinel : Time
  nowFallback : Time
  nowRefreshed : Time

/-- What one call of `update` leaves behind: the returned error (nil is
`none`), the receiver afterwards, and the requests handed to the HTTP client. -/
structure UpdateResult where
  err : Option GoError
  state : Hcc
  sent : List Request

/-- The URL of the authority call:
`fmt.Sprintf("https://%s/caontainercerts/mh/%s?d=%d&ip=%s", zts, h.hostname,
time.Hour/time.Second, url.QueryEscape(h.ip))`. -/
def updateURL (h : Hcc) : GoStr :=
  "https://".toList ++ zts ++ "/caontainercerts/mh/".toList ++ h.hostname
    ++ "?d=".toList ++ intDec (Int.tdiv Hour Second) ++ "&ip=".toList ++ queryEscape h.ip

/-- The `for _, cert := range certs.Certificates` loop of `update`, on the
running `earliestExpiry` and the cache. -/
def updateLoop : List Certificate → Time → SyncMap → Time × SyncMap
  | [], earliestExpiry, certs => (earliestExpiry, certs)
  | cert :: rest, earliestExpiry, certs =>
    match checkExpire cert.Cert with
    | .error _ => updateLoop rest earliestExpiry certs
    | .ok exp =>
      updateLoop rest (if exp.Before earliestExpiry then exp else earliestExpiry)
        (certs.Store cert.AppID cert.Cert)

/-- Go `(h *hcc).update()`. -/
def update (h : Hcc) (w : World) : UpdateResult :=
  let u := updateURL h
  match w.newRequestErr u with
  | some err => { err := some err, state := h, sent := [] }
  | none =>
    match h.token () with
    | .error err => { err := some err, state := h, sent := [] }
    | .ok token =>
      let req : Request :=
        { method := MethodGet, url := u, header := [(principalAuthHeader, token)] }
      match w.httpDo req with
      | .error err => { err := some err, state := h, sent := [req] }
      | .ok res =>
        if res.StatusCode ≠ 200 then
          { err := some (.statusCode u res.StatusCode), state := h, sent := [req] }
        else
          match res.decoded with
          | .error err => { err := some err, state := h, sent := [req] }
          | .ok certs =>
            let sentinel := w.nowSentinel.Add (365 * 24 * Hour)
            let r := updateLoop certs.Certificates sentinel h.certs
            let nextExpire :=
              if r.1 ≠ sentinel then r.1 else w.nowFallback.Add defaultCertExpireTime
            { err := none
              state := { h with certs := r.2, nextExpire := nextExpire, lastRefreshed := w.nowRefreshed }
              sent := [req] }

/-! ## Vocabulary of the specification -/

/-- The payload has a semicolon-delimited field that starts with `k=`. -/
def hasMarker (cert : GoStr) : Bool :=
  (stringsSplit cert ';').any (fun part => stringsHasPrefix part "k=".toList)

/-- The expiry marker of the payload does not fail to parse. -/
def parses (cert : GoStr) : Bool :=
  match checkExpire cert with
  | .ok _ => true
  | .error _ => false

/-- The expiries that `checkExpire` reads from the certificates of a response,
in order; certificates whose marker fails to parse give none. -/
def expiries (cs : List Certificate) : List Time :=
  cs.filterMap (fun c =>
    match checkExpire c.Cert with
    | .ok t => some t
    | .error _ => none)

/-- The authority call of `update` goes through and decodes to `certs`: the
URL is accepted, the token provider gives a token, the client answers with
status 200 and the body decodes. -/
def Fetches (h : Hcc) (w : World) (certs : Certificates) : Prop :=
  w.newRequestErr (updateURL h) = none ∧
  ∃ token res, h.token () = .ok token ∧
    w.httpDo { method := MethodGet, url := updateURL h,
               header := [(principalAuthHeader, token)] } = .ok res ∧
    res.StatusCode = 200 ∧ res.decoded = .ok certs

/-- A world in which the authority answers every request with the given
status code and decoded document, at the given clock reading. -/
def World.answering (code : Int) (doc : Except GoError Certificates) (now : Time) : World :=
  { newRequestErr := fun _ => none
    httpDo := fun _ => .ok { StatusCode := code, decoded := doc }
    nowSentinel := now
    nowFallback := now
    nowRefreshed := now }

/-- A token provider that always hands out the same token. -/
def constToken (t : GoStr) : TokenProvider :=
  fun _ => .ok t

/-- A cache as `NewHCC` builds it for host `host.example` at address
`10.0.0.1`, created at the given time. -/
def freshHcc (now : Time) : Hcc :=
  (NewHCC { IP := "10.0.0.1".toList, Hostname := "host.example".toList }
    (constToken "tok".toList) now now).1

/-- A decoded response with the given certificates. -/
def docOf (cs : List Certificate) : Certificates :=
  { Hostname := "host.example".toList, Certificates := cs }

/-- A reading of `time.Now()` on 2023-11-14 22:13:20 UTC with a monotonic
reading of five seconds. -/
def clock2023 : Time :=
  { sec := 1700000000 + unixToInternal, nsec := 0, mono := some 5000000000, loc := .localLoc }

/-- Three certificates with parsable expiries, the earliest in the middle. -/
def validCerts : List Certificate :=
  [ { AppID := "app.c".toList, Cert := "k=1700000300;v=3".toList },
    { AppID := "app.a".toList, Cert := "k=1700000100".toList },
    { AppID := "app.b".toList, Cert := "x=1;k=1700000200".toList } ]

/-- Three certificates whose expiries lie more than a year after `clock2023`. -/
def farCerts : List Certificate :=
  [ { AppID := "app.a".toList, Cert := "k=1800000000".toList },
    { AppID := "app.b".toList, Cert := "k=1900000000".toList },
    { AppID := "app.c".toList, Cert := "k=2000000000".toList } ]

/-- One certificate with an unparsable marker and two with valid markers. -/
def mixedCerts : List Certificate :=
  [ { AppID := "app.bad".toList, Cert := "k=soon".toList },
    { AppID := "app.a".toList, Cert := "k=1700000100".toList },
    { AppID := "app.b".toList, Cert := "k=1700000200".toList } ]

/-- One certificate without a marker. -/
def markerlessCerts : List Certificate :=
  [ { AppID := "app.n".toList, Cert := "v=1;payload".toList } ]

/-- One certificate without a marker and one with a valid marker. -/
def markerlessAndValidCerts : List Certificate :=
  [ { AppID := "app.n".toList, Cert := "v=1;payload".toList },
    { AppID := "app.a".toList, Cert := "k=1700000100".toList } ]

/-- A cache that already serves a certificate for `app.z`. -/
def seededHcc : Hcc :=
  { freshHcc clock2023 with
    certs := SyncMap.empty.Store "app.z".toList "k=1690000000".toList }

/-! ## The refresh scheduler (`hcc.StartCertUpdater`) -/

/-- What one iteration of the loop of `StartCertUpdater` observes: whether
`ctx.Done()` is closed, the reading of `time.Now()` in the deadline test, and
the world an `update` called in this iteration runs in. -/
structure Tick where
  done : Bool
  now : Time
  world : World

/-- The state of the goroutine of `StartCertUpdater` between iterations: the
receiver, the variable `err`, the errors handed to `glg.Error`, and the number
of calls of `h.update` so far. -/
structure Updater where
  h : Hcc
  err : Option GoError
  logged : List GoError
  updates : Nat

/-- One iteration of the `for` loop of `StartCertUpdater`: `none` when the
goroutine returns (the `ctx.Done()` case of the `select`), otherwise the state
after the `default` case. -/
def certUpdaterStep (s : Updater) (t : Tick) : Option Updater :=
  if t.done then none
  else if t.now.After s.h.nextExpire then
    let r := update s.h t.world
    some { h := r.state
           err := r.err
           logged := match r.err with
             | some e => s.logged ++ [e]
             | none => s.logged
           updates := s.updates + 1 }
  else some s

/-- The loop of `StartCertUpdater` over the observations of its first
iterations: the state reached and whether the goroutine has returned. -/
def certUpdaterRun : Updater → List Tick → Updater × Bool
  | s, [] => (s, false)
  | s, t :: ts =>
    match certUpdaterStep s t with
    | none => (s, true)
    | some s2 => certUpdaterRun s2 ts

/-- The goroutine as `StartCertUpdater` starts it on a receiver. -/
def certUpdaterStart (h : Hcc) : Updater :=
  { h := h, err := none, logged := [], updates := 0 }

/-! ## The TLS policy (`service.NewTLSConfig`) -/

/-- Go `tls.ClientAuthType`. -/
inductive ClientAuthType where
  | NoClientCert
  | RequestClientCert
  | RequireAnyClientCert
  | VerifyClientCertIfGiven
  | RequireAndVerifyClientCert
  deriving DecidableEq, Repr

/-- Go `tls.CurveID`, the curves the policy names. -/
inductive CurveID where
  | CurveP256
  | CurveP384
  | CurveP521
  | X25519
  deriving DecidableEq, Repr

/-- Go `tls.VersionTLS12`. -/
def VersionTLS12 : Nat := 0x0303

/-- A loaded identity key pair (`tls.Certificate`), by the paths it came from. -/
structure KeyPair where
  certPath : GoStr
  keyPath : GoStr
  deriving DecidableEq, Repr

/-- A loaded trust pool (`*x509.CertPool`), by the path it came from. -/
structure CertPool where
  caPath : GoStr
  deriving DecidableEq, Repr

/-- The fields of Go `tls.Config` that the policy sets. -/
structure TLSConfig where
  MinVersion : Nat
  CurvePreferences : List CurveID
  SessionTicketsDisabled : Bool
  Certificates : List KeyPair
  ClientCAs : Option CertPool
  ClientAuth : ClientAuthType
  deriving DecidableEq, Repr

/-- The struct `config.TLS` as the tests of `NewTLSConfig` fill it: each field
names the environment variable that holds the path. -/
structure ConfigTLS where
  Cert : GoStr
  Key : GoStr
  CA : GoStr

/-- The outside world of `NewTLSConfig`: the one layer of indirection that
turns a configured value into a path (empty when it resolves to nothing), the
loader of the key pair and the loader of the trust pool. -/
structure TLSWorld where
  resolve : GoStr → GoStr
  loadX509KeyPair : GoStr → GoStr → Except GoError KeyPair
  newX509CertPool : GoStr → Except GoError CertPool

/-- Modelled from the spec: `NewTLSConfig` of `service/tls.go`, of which only
the tests are among the sources. The three paths are resolved through the
indirection; a certificate or key path that is absent fails with
`Cert/Key path not found`; otherwise the key pair is loaded and a loading
error returned; a trust-anchor path that is present is loaded into a pool, a
loading error returned, and on success the pool is attached and the client
authentication is `RequireAndVerifyClientCert`; without a trust-anchor path
the client authentication is `NoClientCert` and no pool is attached. The
hardening is fixed: TLS 1.2 as minimum version, the curve list of the tests,
session tickets disabled. -/
def NewTLSConfig (w : TLSWorld) (cfg : ConfigTLS) : Except GoError TLSConfig :=
  let cert := w.resolve cfg.Cert
  let key := w.resolve cfg.Key
  let ca := w.resolve cfg.CA
  if cert = [] ∨ key = [] then .error (.other "Cert/Key path not found".toList)
  else
    match w.loadX509KeyPair cert key with
    | .error err => .error err
    | .ok crt =>
      if ca ≠ [] then
        match w.newX509CertPool ca with
        | .error err => .error err
        | .ok pool =>
          .ok { MinVersion := VersionTLS12
                CurvePreferences := [.CurveP256, .CurveP384, .CurveP521, .X25519]
                SessionTicketsDisabled := true
                Certificates := [crt]
                ClientCAs := some pool
                ClientAuth := .RequireAndVerifyClientCert }
      else
        .ok { MinVersion := VersionTLS12
              CurvePreferences := [.CurveP256, .CurveP384, .CurveP521, .X25519]
              SessionTicketsDisabled := true
              Certificates := [crt]
              ClientCAs := none
              ClientAuth := .NoClientCert }

/-- An environment as the tests of `NewTLSConfig` set it up: the variables
listed in `vars` hold paths, every file loads. -/
def TLSWorld.ofVars (vars : List (GoStr × GoStr)) : TLSWorld :=
  { resolve := fun name => (vars.lookup name).getD []
    loadX509KeyPair := fun c k => .ok { certPath := c, keyPath := k }
    newX509CertPool := fun p => .ok { caPath := p } }

/-- The environment of the tests with certificate, key and trust anchor. -/
def tlsWorldFull : TLSWorld :=
  TLSWorld.ofVars [("_test_cert_".toList, "./assets/dummyServer.crt".toList),
    ("_test_key_".toList, "./assets/dummyServer.key".toList),
    ("_test_ca_".toList, "./assets/dummyCa.pem".toList)]

/-- The environment of the tests with certificate and key only. -/
def tlsWorldNoCA : TLSWorld :=
  TLSWorld.ofVars [("_test_cert_".toList, "./assets/dummyServer.crt".toList),
    ("_test_key_".toList, "./assets/dummyServer.key".toList)]

/-- The environment of the tests without the certificate variable. -/
def tlsWorldNoCert : TLSWorld :=
  TLSWorld.ofVars [("_test_key_".toList, "./assets/dummyServer.key".toList),
    ("_test_ca_".toList, "./assets/dummyCa.pem".toList)]

/-- The environment of the tests without the key variable. -/
def tlsWorldNoKey : TLSWorld :=
  TLSWorld.ofVars [("_test_cert_".toList, "./assets/dummyServer.crt".toList),
    ("_test_ca_".toList, "./assets/dummyCa.pem".toList)]

/-- The policy the tests expect, with the given pool and client authentication. -/
def testPolicy (pool : Option CertPool) (auth : ClientAuthType) : TLSConfig :=
  { MinVersion := VersionTLS12
    CurvePreferences := [.CurveP256, .CurveP384, .CurveP521, .X25519]
    SessionTicketsDisabled := true
    Certificates :=
      [{ certPath := "./assets/dummyServer.crt".toList, keyPath := "./assets/dummyServer.key".toList }]
    ClientCAs := pool
    ClientAuth := auth }

/-- The configuration of the tests of `NewTLSConfig`. -/
def testConfigTLS : ConfigTLS :=
  { Cert := "_test_cert_".toList, Key := "_test_key_".toList, CA := "_test_ca_".toList }

/-! ## Construction of the token service (`usecase.createNtokend`, `usecase.New`) -/

/-- Go `time.ParseDuration(orig)` up to its loop: the optional sign, the special
case `"0"`, the rejection of the empty text, and the sign of the result. The
loop over the `<number><unit>` groups, which Go computes with `float64`
arithmetic, is the parameter `groups`: given the original and the unsigned
text it returns the message of the error or the nanoseconds. -/
def timeParseDuration (groups : GoStr → GoStr → Except GoStr Int) (orig : GoStr) :
    Except GoStr Duration :=
  let neg : Bool :=
    match orig with
    | c :: _ => c = '-'
    | [] => false
  let s : GoStr :=
    match orig with
    | c :: cs => if c = '-' ∨ c = '+' then cs else orig
    | [] => []
  if s = "0".toList then .ok 0
  else if s = [] then .error ("time: invalid duration ".toList ++ orig)
  else
    match groups orig s with
    | .error msg => .error msg
    | .ok d => .ok (if neg then -d else d)

/-- The struct `config.Token` as the tests fill it. -/
structure ConfigToken where
  AthenzDomain : GoStr
  ServiceName : GoStr
  NTokenPath : GoStr
  PrivateKeyPath : GoStr
  ValidateToken : Bool
  RefreshDuration : GoStr
  KeyVersion : GoStr
  Expiration : GoStr

/-- The part of `config.Config` that the construction of the token service reads. -/
structure Config where
  Token : ConfigToken

/-- The token service that `createNtokend` returns, by the durations it was
built with. -/
structure TokenService where
  refreshDuration : Duration
  tokenExpiration : Duration
  deriving DecidableEq, Repr

/-- The tenant that `New` returns. -/
structure Tenantd where
  cfg : Config
  token : TokenService

/-- The outside world of `createNtokend`: the loop of `time.ParseDuration`, and
the loading of the private key followed by the construction of the token
builder, which fails with its own error. -/
structure TenantWorld where
  durationGroups : GoStr → GoStr → Except GoStr Int
  buildTokenService : ConfigToken → Duration → Duration → Except GoError TokenService

/-- Modelled from the spec: `createNtokend` of `usecase/tenantd.go`, of which
only the tests are among the sources. The refresh duration is parsed first and
a parse failure is the error `invalid token refresh duration <raw>, <parse
error>`; then the expiration is parsed and a parse failure is the error
`invalid token expiration <raw>, <parse error>`; then the key material is
loaded and the token service built. -/
def createNtokend (w : TenantWorld) (cfg : ConfigToken) : Except GoError TokenService :=
  match timeParseDuration w.durationGroups cfg.RefreshDuration with
  | .error msg =>
    .error (.other ("invalid token refresh duration ".toList ++ cfg.RefreshDuration
      ++ ", ".toList ++ msg))
  | .ok dur =>
    match timeParseDuration w.durationGroups cfg.Expiration with
    | .error msg =>
      .error (.other ("invalid token expiration ".toList ++ cfg.Expiration ++ ", ".toList ++ msg))
    | .ok exp => w.buildTokenService cfg dur exp

/-- Modelled from the spec: `New` of `usecase/tenantd.go`, of which only the
tests are among the sources. It validates the configuration by building the
token service, returns its error, and otherwise returns the inert tenant. -/
def New (w : TenantWorld) (cfg : Config) : Except GoError Tenantd :=
  match createNtokend w cfg.Token with
  | .error err => .error err
  | .ok token => .ok { cfg := cfg, token := token }

/-- The zero value `config.Token{}`. -/
def ConfigToken.zero : ConfigToken :=
  { AthenzDomain := [], ServiceName := [], NTokenPath := [], PrivateKeyPath := []
    ValidateToken := false, RefreshDuration := [], KeyVersion := [], Expiration := [] }

/-- A world for the durations of the tests: `1s` and `1m` parse, every other
text is an invalid duration; every token service builds. -/
def testTenantWorld : TenantWorld :=
  { durationGroups := fun orig s =>
      if s = "1s".toList then .ok 1000000000
      else if s = "1m".toList then .ok 60000000000
      else .error ("time: invalid duration ".toList ++ orig)
    buildTokenService := fun _ dur exp => .ok { refreshDuration := dur, tokenExpiration := exp } }

/-! ## The earliest expiry of a response -/

/-- The earliest of a list of times under `Before`, the first one among equals;
none for the empty list. -/
def earliestOf : List Time → Option Time
  | [] => none
  | t :: ts =>
    match earliestOf ts with
    | none => some t
    | some m => if m.Before t then some m else some t

/-- One certificate without a marker and one whose expiry lies before year 1. -/
def markerlessAndAncientCerts : List Certificate :=
  [ { AppID := "app.n".toList, Cert := "v=1;payload".toList },
    { AppID := "app.old".toList, Cert := "k=-70000000000".toList } ]

/-! ## Base-10 integers, in the words of the specification -/

/-- A decimal digit. -/
def isDecDigit (c : Char) : Bool :=
  decide ('0' ≤ c ∧ c ≤ '9')

/-- The number that a run of decimal digits denotes after the digits that gave
`n`. -/
def decValueFrom (n : Nat) (s : GoStr) : Nat :=
  s.foldl (fun acc c => acc * 10 + (c.toNat - '0'.toNat)) n

/-- The integer that a text denotes in base 10: an optional sign followed by
one or more decimal digits; none for any other text. -/
def decimalInt (s : GoStr) : Option Int :=
  match s with
  | [] => none
  | c :: cs =>
    let body : GoStr := if c = '+' ∨ c = '-' then cs else c :: cs
    if body ≠ [] ∧ body.all isDecDigit = true then
      some (if c = '-' then -(decValueFrom 0 body : Int) else (decValueFrom 0 body : Int))
    else none

/-- The text is a base-10 integer that fits in 64 signed bits. -/
def fitsInt64 (s : GoStr) : Bool :=
  match decimalInt s with
  | some v => decide (isInt64 v)
  | none => false

/-! ## The user-directory client (`service/udb.go`) -/

/-- Go `map[string]string`, by its entries in the order in which a `range`
over it visits them; the keys are distinct. -/
abbrev StrMap := List (GoStr × GoStr)

/-- Go `m[key]` with the presence flag. -/
def StrMap.get : StrMap → GoStr → Option GoStr
  | [], _ => none
  | (k, v) :: rest, key => if k = key then some v else StrMap.get rest key

/-- Go `m[key] = val`: the entry is replaced in place, or added. -/
def StrMap.set : StrMap → GoStr → GoStr → StrMap
  | [], key, val => [(key, val)]
  | (k, v) :: rest, key, val =>
    if k = key then (k, val) :: rest else (k, v) :: StrMap.set rest key val

/-- The keys of a map, in `range` order. -/
def StrMap.keys (m : StrMap) : List GoStr :=
  m.map Prod.fst

/-- Go `http.Header` with canonical keys. -/
abbrev Header := List (GoStr × GoStr)

/-- Go `h.Del(key)`. -/
def Header.Del (h : Header) (key : GoStr) : Header :=
  h.filter (fun e => e.1 ≠ key)

/-- Go `h.Set(key, value)`. -/
def Header.Set (h : Header) (key value : GoStr) : Header :=
  h.filter (fun e => e.1 ≠ key) ++ [(key, value)]

/-- Go `strings.Join(elems, sep)`. -/
def stringsJoin : List GoStr → GoStr → GoStr
  | [], _ => []
  | [a], _ => a
  | a :: b :: rest, sep => a ++ sep ++ stringsJoin (b :: rest) sep

/-- The interface `YCA`: `GetCertificate(appID) (string, error)`. -/
abbrev YCA := GoStr → Except GoError GoStr

/-- The struct `udb`. -/
structure Udb where
  yca : YCA
  host : GoStr
  keys : GoStr
  appID : GoStr

/-- The struct `config.UDB` as `NewUDBClient` reads it. -/
structure ConfigUDB where
  Scheme : GoStr
  Host : GoStr
  Port : Int
  Version : GoStr
  AppID : GoStr
  Keys : List GoStr

/-- Go `NewUDBClient(cfg, yca)`. -/
def NewUDBClient (cfg : ConfigUDB) (yca : YCA) : Udb :=
  { yca := yca
    host := cfg.Scheme ++ "://".toList ++ cfg.Host ++ ":".toList ++ intDec cfg.Port ++ "/".toList
      ++ cfg.Version ++ "/".toList ++ "users".toList
    appID := cfg.AppID
    keys := stringsJoin cfg.Keys ",".toList }

/-- An `http.Request` as `doRequest` builds it. -/
structure UdbRequest where
  method : GoStr
  url : GoStr
  body : Option GoStr
  header : Header
  deriving DecidableEq, Repr

/-- An `http.Response` as `doRequest` reads it: the status code and the outcome
of `json.NewDecoder(res.Body).Decode(&data)` into a `map[string]string`. -/
structure UdbResponse where
  StatusCode : Int
  decoded : Except GoError StrMap

/-- The outside world of one call of `doRequest`: whether `http.NewRequest`
accepts method and URL, what `http.DefaultClient.Do` answers, and
`base64.StdEncoding.DecodeString` followed by the conversion of the bytes to a
string. -/
structure UdbWorld where
  newRequestErr : GoStr → GoStr → Option GoError
  httpDo : UdbRequest → Except GoError UdbResponse
  decodeString : GoStr → Except GoError GoStr

/-- The `for k, v := range data` loop of `doRequest` over the keys still to
visit: the first value that does not decode ends it with the error, every
other value is replaced by its decoding. -/
def rangeDecode (decodeString : GoStr → Except GoError GoStr) :
    List GoStr → StrMap → Except GoError StrMap
  | [], data => .ok data
  | k :: ks, data =>
    match data.get k with
    | none => rangeDecode decodeString ks data
    | some v =>
      match decodeString v with
      | .error err => .error err
      | .ok b => rangeDecode decodeString ks (data.set k b)

/-- Go `(u *udb).doRequest(method, url, cookie, body)`: the map (nil is `none`)
and the error (nil is `none`). -/
def doRequest (u : Udb) (w : UdbWorld) (method url cookie : GoStr) (body : Option GoStr) :
    Option StrMap × Option GoError :=
  match w.newRequestErr method url with
  | some err => (none, some err)
  | none =>
    match u.yca u.appID with
    | .error err => (none, some err)
    | .ok cert =>
      let h1 : Header := (Header.Del [] "Yahoo-App-Auth".toList).Set "Yahoo-App-Auth".toList cert
      let h2 : Header := (h1.Del "Content-Type".toList).Set "Content-Type".toList
        "application/json".toList
      let h3 : Header :=
        if cookie.length > 0 then (h2.Del "Cookie".toList).Set "Cookie".toList cookie else h2
      match w.httpDo { method := method, url := url, body := body, header := h3 } with
      | .error err => (none, some err)
      | .ok res =>
        if res.StatusCode ≠ 200 then
          (none, some (.other ("Error: response status ".toList ++ intDec res.StatusCode)))
        else
          match res.decoded with
          | .error err => (none, some err)
          | .ok data =>
            match rangeDecode w.decodeString data.keys data with
            | .error err => (none, some err)
            | .ok decoded => (some decoded, none)

/-- Go `(u *udb).GetByGUID(guid)`. -/
def GetByGUID (u : Udb) (w : UdbWorld) (guid : GoStr) : Option StrMap × Option GoError :=
  doRequest u w MethodGet (u.host ++ "/".toList ++ guid ++ "?fields=".toList ++ u.keys) [] none

/-- The decoding of a value when it decodes, the empty string otherwise. -/
def decodedValue (decodeString : GoStr → Except GoError GoStr) (v : GoStr) : GoStr :=
  match decodeString v with
  | .ok b => b
  | .error _ => []

/-- A world in which the directory answers every request with the given status
and document; the decoder knows the base64 texts of `hello` and `world` and
rejects every other text. -/
def UdbWorld.answering (code : Int) (doc : Except GoError StrMap) : UdbWorld :=
  { newRequestErr := fun _ _ => none
    httpDo := fun _ => .ok { StatusCode := code, decoded := doc }
    decodeString := fun v =>
      if v = "aGVsbG8=".toList then .ok "hello".toList
      else if v = "d29ybGQ=".toList then .ok "world".toList
      else .error (.other "illegal base64 data at input byte 0".toList) }

/-- A client for the directory at `https://udb.example:4443/v1/users`. -/
def testUdb : Udb :=
  NewUDBClient
    { Scheme := "https".toList, Host := "udb.example".toList, Port := 4443, Version := "v1".toList
      AppID := "app.udb".toList, Keys := ["name".toList, "mail".toList] }
    (fun _ => .ok "yca-cert".toList)

/-- The header that `doRequest` sends for the certificate `cert` and the
cookie `cookie`. -/
def udbHeader (cert cookie : GoStr) : Header :=
  let h1 : Header := (Header.Del [] "Yahoo-App-Auth".toList).Set "Yahoo-App-Auth".toList cert
  let h2 : Header := (h1.Del "Content-Type".toList).Set "Content-Type".toList
    "application/json".toList
  if cookie.length > 0 then (h2.Del "Cookie".toList).Set "Cookie".toList cookie else h2

/-- A directory document whose two values are valid base64. -/
def validDirectoryDoc : StrMap :=
  [("name".toList, "aGVsbG8=".toList), ("mail".toList, "d29ybGQ=".toList)]

/-- A directory document whose second value is not base64. -/
def brokenDirectoryDoc : StrMap :=
  [("name".toList, "aGVsbG8=".toList), ("mail".toList, "not base64!".toList)]

/-- A cache that already serves an older certificate for `app.bad`. -/
def staleHcc : Hcc :=
  { freshHcc clock2023 with
    certs := SyncMap.empty.Store "app.bad".toList "k=1690000000".toList }

/-! ## Lemmas on times -/

theorem Time.Before_of_mono_none (t u : Time) (ht : t.mono = none) :
    t.Before u = decide (t.sec < u.sec ∨ (t.sec = u.sec ∧ t.nsec < u.nsec)) := by
  unfold Time.Before
  rw [ht]

theorem Time.Before_irrefl (t : Time) : t.Before t = false := by
  unfold Time.Before
  cases t.mono <;> simp

theorem Time.Before_trans_false (t x e : Time) (ht : t.mono = none) (hx : x.mono = none)
    (hte : t.Before e = false) (hxe : x.Before e = true) : t.Before x = false := by
  rw [Time.Before_of_mono_none t _ ht] at hte ⊢
  rw [Time.Before_of_mono_none x _ hx] at hxe
  simp only [decide_eq_false_iff_not, decide_eq_true_eq] at *
  omega

theorem checkExpireParts_mono_none :
    ∀ (parts : List GoStr) (t : Time), checkExpireParts parts = .ok t → t.mono = none := by
  intro parts
  induction parts with
  | nil => intro t h; simp only [checkExpireParts, Except.ok.injEq] at h; rw [← h]; rfl
  | cons part rest ih =>
    intro t h
    unfold checkExpireParts at h
    split at h
    · split at h
      · exact absurd h (by simp)
      · simp only [Except.ok.injEq] at h; rw [← h]; rfl
    · exact ih t h

theorem checkExpire_mono_none (cert : GoStr) (t : Time) (h : checkExpire cert = .ok t) :
    t.mono = none :=
  checkExpireParts_mono_none _ t h

/-! ## Lemmas on the loop of `update` -/

theorem updateLoop_append (pre post : List Certificate) (e : Time) (m : SyncMap) :
    updateLoop (pre ++ post) e m = updateLoop post (updateLoop pre e m).1 (updateLoop pre e m).2 := by
  induction pre generalizing e m with
  | nil => rfl
  | cons c rest ih =>
    rw [List.cons_append]
    simp only [updateLoop]
    cases hc : checkExpire c.Cert with
    | error k => exact ih e m
    | ok exp => exact ih _ _

/-- A time that is not before the running minimum is not before the result. -/
theorem updateLoop_fst_below (cs : List Certificate) (e : Time) (m : SyncMap) (t : Time)
    (ht : t.mono = none) (hte : t.Before e = false) : t.Before (updateLoop cs e m).1 = false := by
  induction cs generalizing e m with
  | nil => exact hte
  | cons c rest ih =>
    simp only [updateLoop]
    cases hc : checkExpire c.Cert with
    | error k => exact ih e m hte
    | ok exp =>
      simp only
      apply ih
      by_cases hb : exp.Before e = true
      · rw [if_pos hb]
        exact Time.Before_trans_false t exp e ht (checkExpire_mono_none _ _ hc) hte hb
      · rw [if_neg hb]; exact hte

/-- No expiry of the response is before the result of the loop. -/
theorem updateLoop_fst_le (cs : List Certificate) (e : Time) (m : SyncMap) :
    ∀ c ∈ cs, ∀ t, checkExpire c.Cert = .ok t → t.Before (updateLoop cs e m).1 = false := by
  induction cs generalizing e m with
  | nil => intro c hc; cases hc
  | cons c0 rest ih =>
    intro c hc t hct
    simp only [updateLoop]
    rcases List.mem_cons.mp hc with rfl | hmem
    · rw [hct]
      simp only
      apply updateLoop_fst_below _ _ _ _ (checkExpire_mono_none _ _ hct)
      by_cases hb : t.Before e = true
      · rw [if_pos hb]; exact Time.Before_irrefl t
      · rw [if_neg hb]; simpa using hb
    · cases hc0 : checkExpire c0.Cert with
      | error k => exact ih e m c hmem t hct
      | ok exp => exact ih _ _ c hmem t hct

/-- The result of the loop is the start value or an expiry of the response that
is before the start value. -/
theorem updateLoop_fst_cases (cs : List Certificate) (e : Time) (m : SyncMap) :
    (updateLoop cs e m).1 = e ∨
      ∃ c ∈ cs, checkExpire c.Cert = .ok (updateLoop cs e m).1 ∧
        (updateLoop cs e m).1.Before e = true := by
  induction cs generalizing e m with
  | nil => exact Or.inl rfl
  | cons c0 rest ih =>
    simp only [updateLoop]
    cases hc0 : checkExpire c0.Cert with
    | error k =>
      rcases ih e m with h | ⟨c, hc, h1, h2⟩
      · exact Or.inl h
      · exact Or.inr ⟨c, List.mem_cons_of_mem _ hc, h1, h2⟩
    | ok exp =>
      simp only
      by_cases hb : exp.Before e = true
      · rw [if_pos hb]
        rcases ih exp (m.Store c0.AppID c0.Cert) with h | ⟨c, hc, h1, h2⟩
        · right
          refine ⟨c0, List.mem_cons_self _ _, ?_, ?_⟩
          · rw [h]; exact hc0
          · rw [h]; exact hb
        · right
          refine ⟨c, List.mem_cons_of_mem _ hc, h1, ?_⟩
          have hm := checkExpire_mono_none _ _ h1
          have hx := checkExpire_mono_none _ _ hc0
          rw [Time.Before_of_mono_none _ _ hm] at h2 ⊢
          rw [Time.Before_of_mono_none _ _ hx] at hb
          simp only [decide_eq_true_eq] at *
          omega
      · rw [if_neg hb]
        rcases ih e (m.Store c0.AppID c0.Cert) with h | ⟨c, hc, h1, h2⟩
        · exact Or.inl h
        · exact Or.inr ⟨c, List.mem_cons_of_mem _ hc, h1, h2⟩

/-- Certificates whose marker fails to parse leave no trace in the loop. -/
theorem updateLoop_filter_parses (cs : List Certificate) (e : Time) (m : SyncMap) :
    updateLoop (cs.filter (fun c => parses c.Cert)) e m = updateLoop cs e m := by
  induction cs generalizing e m with
  | nil => rfl
  | cons c rest ih =>
    cases hc : checkExpire c.Cert with
    | error k =>
      have hp : parses c.Cert = false := by simp [parses, hc]
      simp only [List.filter_cons, hp, updateLoop, hc]
      exact ih e m
    | ok exp =>
      have hp : parses c.Cert = true := by simp [parses, hc]
      simp only [List.filter_cons, hp, updateLoop, hc, if_true]
      exact ih _ _

/-- The loop leaves alone every key under which it stores nothing. -/
theorem updateLoop_snd_frame (cs : List Certificate) (e : Time) (m : SyncMap) (a : GoStr)
    (h : ∀ c ∈ cs, c.AppID = a → parses c.Cert = false) : (updateLoop cs e m).2 a = m a := by
  induction cs generalizing e m with
  | nil => rfl
  | cons c rest ih =>
    have hrest : ∀ c ∈ rest, c.AppID = a → parses c.Cert = false :=
      fun c' hc' => h c' (List.mem_cons_of_mem _ hc')
    simp only [updateLoop]
    cases hc : checkExpire c.Cert with
    | error k => exact ih e m hrest
    | ok exp =>
      simp only
      rw [ih _ _ hrest]
      have hne : ¬ a = c.AppID := by
        intro ha
        have := h c (List.mem_cons_self _ _) ha.symm
        simp [parses, hc] at this
      simp [SyncMap.Store, hne]

/-- What `update` does when the authority call goes through. -/
theorem update_of_fetches (h : Hcc) (w : World) (certs : Certificates) (hf : Fetches h w certs) :
    (update h w).err = none ∧
    (update h w).state =
      { h with
        certs := (updateLoop certs.Certificates (w.nowSentinel.Add (365 * 24 * Hour)) h.certs).2
        nextExpire :=
          if (updateLoop certs.Certificates (w.nowSentinel.Add (365 * 24 * Hour)) h.certs).1
              ≠ w.nowSentinel.Add (365 * 24 * Hour)
          then (updateLoop certs.Certificates (w.nowSentinel.Add (365 * 24 * Hour)) h.certs).1
          else w.nowFallback.Add defaultCertExpireTime
        lastRefreshed := w.nowRefreshed } := by
  obtain ⟨h1, token, res, h2, h3, h4, h5⟩ := hf
  simp only [update, h1, h2, h3, h4, h5]
  simp

/-- An `update` that returns nil went through the authority call. -/
theorem fetches_of_update_ok (h : Hcc) (w : World) (hok : (update h w).err = none) :
    ∃ certs, Fetches h w certs := by
  unfold update at hok
  unfold Fetches
  cases h1 : w.newRequestErr (updateURL h) with
  | some e => simp [h1] at hok
  | none =>
    cases h2 : h.token () with
    | error e => simp [h1, h2] at hok
    | ok token =>
      cases h3 : w.httpDo { method := MethodGet, url := updateURL h,
                            header := [(principalAuthHeader, token)] } with
      | error e => simp [h1, h2, h3] at hok
      | ok res =>
        by_cases h4 : res.StatusCode = 200
        · cases h5 : res.decoded with
          | error e => simp [h1, h2, h3, h4, h5] at hok
          | ok certs => exact ⟨certs, rfl, token, res, rfl, h3, h4, h5⟩
        · simp [h1, h2, h3, h4] at hok

/-- A world that answers 200 with a document lets the call go through. -/
theorem fetches_answering (h : Hcc) (doc : Certificates) (now : Time) (token : GoStr)
    (ht : h.token () = .ok token) : Fetches h (World.answering 200 (.ok doc) now) doc :=
  ⟨rfl, token, { StatusCode := 200, decoded := .ok doc }, ht, rfl, rfl, rfl⟩

theorem mem_expiries (cs : List Certificate) (t : Time) :
    t ∈ expiries cs ↔ ∃ c ∈ cs, checkExpire c.Cert = .ok t := by
  unfold expiries
  rw [List.mem_filterMap]
  constructor
  · rintro ⟨c, hc, h⟩
    refine ⟨c, hc, ?_⟩
    cases hx : checkExpire c.Cert with
    | error k => rw [hx] at h; simp at h
    | ok t0 => rw [hx] at h; simp only [Option.some.injEq] at h; rw [h]
  · rintro ⟨c, hc, h⟩
    exact ⟨c, hc, by rw [h]⟩

theorem checkExpireParts_marker :
    ∀ (parts : List GoStr) (t : Time),
      parts.any (fun part => stringsHasPrefix part "k=".toList) = true →
      checkExpireParts parts = .ok t → ∃ v, t = timeUnix v := by
  intro parts
  induction parts with
  | nil => intro t h; simp at h
  | cons part rest ih =>
    intro t hany h
    unfold checkExpireParts at h
    split at h
    · split at h
      · exact absurd h (by simp)
      · rename_i v _
        simp only [Except.ok.injEq] at h
        exact ⟨v, h.symm⟩
    · rename_i hp
      simp only [List.any_cons, Bool.or_eq_true] at hany
      rcases hany with hany | hany
      · exact absurd hany hp
      · exact ih t hany h

/-- The expiry read from a payload with a marker is a `time.Unix` value. -/
theorem checkExpire_marker (cert : GoStr) (t : Time) (hm : hasMarker cert = true)
    (h : checkExpire cert = .ok t) : ∃ v, t = timeUnix v :=
  checkExpireParts_marker _ t hm h

/-- Two `time.Unix` values neither of which is before the other are equal. -/
theorem timeUnix_eq_of_not_before (a b : Int) (h1 : (timeUnix a).Before (timeUnix b) = false)
    (h2 : (timeUnix b).Before (timeUnix a) = false) : timeUnix a = timeUnix b := by
  simp only [Time.Before, timeUnix, decide_eq_false_iff_not] at h1 h2
  have hs : wrapInt64 (a + unixToInternal) = wrapInt64 (b + unixToInternal) := by omega
  simp only [timeUnix, hs]

theorem defaultCertExpireTime_eq : defaultCertExpireTime = 1800000000000 := by decide

theorem sentinelDuration_eq : (365 * 24 * Hour : Duration) = 31536000000000000 := by decide

/-- The fallback deadline and the sentinel computed from one clock reading
differ. -/
theorem Time.Add_default_ne_sentinel (t : Time) :
    t.Add defaultCertExpireTime ≠ t.Add (365 * 24 * Hour) := by
  intro h
  have hs := congrArg Time.sec h
  rw [defaultCertExpireTime_eq, sentinelDuration_eq] at hs
  have e1 : Int.tdiv 1800000000000 1000000000 = 1800 := by decide
  have e2 : Int.tmod 1800000000000 1000000000 = 0 := by decide
  have e3 : Int.tdiv 31536000000000000 1000000000 = 31536000 := by decide
  have e4 : Int.tmod 31536000000000000 1000000000 = 0 := by decide
  unfold Time.Add at hs
  simp only [e1, e2, e3, e4, wrapInt64, add_zero] at hs
  cases hm : t.mono with
  | none => simp only [hm] at hs; split_ifs at hs <;> omega
  | some m => simp only [hm] at hs; split_ifs at hs <;> (try dsimp only at hs) <;> omega

/-! ## The next refresh deadline -/

/-- C1, as amended: after a successful `update` in which every certificate of
the response carries a `k=` marker that parses, `nextExpire` is the earliest
of the parsed expiries when that one is strictly before the sentinel (the
refresh time plus 365 days), and the refresh time plus 30 minutes otherwise. -/
theorem update_nextExpire_earliest (h : Hcc) (w : World) (certs : Certificates) (m : Time)
    (hf : Fetches h w certs)
    (hall : ∀ c ∈ certs.Certificates, hasMarker c.Cert = true ∧ parses c.Cert = true)
    (hm : m ∈ expiries certs.Certificates)
    (hmin : ∀ t ∈ expiries certs.Certificates, t.Before m = false) :
    (update h w).state.nextExpire =
      if m.Before (w.nowSentinel.Add (365 * 24 * Hour)) then m
      else w.nowFallback.Add defaultCertExpireTime := by
  rw [(update_of_fetches h w certs hf).2]
  simp only
  obtain ⟨cm, hcm, hcme⟩ := (mem_expiries _ _).mp hm
  have hmono : m.mono = none := checkExpire_mono_none _ _ hcme
  have hle := updateLoop_fst_le certs.Certificates (w.nowSentinel.Add (365 * 24 * Hour)) h.certs
    cm hcm m hcme
  rcases updateLoop_fst_cases certs.Certificates (w.nowSentinel.Add (365 * 24 * Hour)) h.certs
    with hr | ⟨c, hc, hce, hcb⟩
  · rw [hr] at hle
    rw [if_neg (not_not.mpr hr), hle]
    rfl
  · have hne : (updateLoop certs.Certificates (w.nowSentinel.Add (365 * 24 * Hour)) h.certs).1
        ≠ w.nowSentinel.Add (365 * 24 * Hour) := by
      intro heq
      rw [heq, Time.Before_irrefl] at hcb
      exact absurd hcb (by simp)
    have hrm := hmin _ ((mem_expiries _ _).mpr ⟨c, hc, hce⟩)
    obtain ⟨vr, hvr⟩ := checkExpire_marker _ _ (hall c hc).1 hce
    obtain ⟨vm, hvm⟩ := checkExpire_marker _ _ (hall cm hcm).1 hcme
    have heq : (updateLoop certs.Certificates (w.nowSentinel.Add (365 * 24 * Hour)) h.certs).1 = m := by
      rw [hvr, hvm] at hrm hle ⊢
      exact timeUnix_eq_of_not_before _ _ hrm hle
    rw [if_pos hne, heq]
    rw [heq] at hcb
    rw [if_pos hcb]

/-- C1 at a concrete input: three parsable expiries within the year, the
earliest of them becomes `nextExpire`. -/
theorem update_nextExpire_earliest_witness :
    (update (freshHcc clock2023) (World.answering 200 (.ok (docOf validCerts)) clock2023)).state.nextExpire
      = timeUnix 1700000100 := by
  have h := update_nextExpire_earliest (freshHcc clock2023)
    (World.answering 200 (.ok (docOf validCerts)) clock2023) (docOf validCerts) (timeUnix 1700000100)
    (fetches_answering _ _ _ _ rfl) (by decide) (by decide) (by decide)
  rw [h]
  decide

/-- C1 as stated fails: with every expiry more than 365 days after the refresh
the response is well-formed, the earliest parsed expiry is `1800000000`, and
`nextExpire` is the refresh time plus 30 minutes instead. -/
theorem update_nextExpire_beyond_year_counterexample :
    Fetches (freshHcc clock2023) (World.answering 200 (.ok (docOf farCerts)) clock2023) (docOf farCerts) ∧
    (∀ c ∈ farCerts, hasMarker c.Cert = true ∧ parses c.Cert = true) ∧
    timeUnix 1800000000 ∈ expiries farCerts ∧
    (∀ t ∈ expiries farCerts, t.Before (timeUnix 1800000000) = false) ∧
    (update (freshHcc clock2023) (World.answering 200 (.ok (docOf farCerts)) clock2023)).state.nextExpire
      ≠ timeUnix 1800000000 ∧
    (update (freshHcc clock2023) (World.answering 200 (.ok (docOf farCerts)) clock2023)).state.nextExpire
      = clock2023.Add defaultCertExpireTime :=
  ⟨fetches_answering _ _ _ _ rfl, by decide, by decide, by decide, by decide, by decide⟩

/-- C2 on the code: a response of one marker-less certificate is accepted and
sets `nextExpire` to the zero time, not to the refresh time plus 30 minutes;
a marker-less certificate next to a valid one also gives the zero time, while
the valid one alone gives its expiry. -/
theorem update_markerless_sets_zero_time :
    (update (freshHcc clock2023) (World.answering 200 (.ok (docOf markerlessCerts)) clock2023)).err = none ∧
    hasMarker "v=1;payload".toList = false ∧
    (update (freshHcc clock2023) (World.answering 200 (.ok (docOf markerlessCerts)) clock2023)).state.nextExpire
      = Time.zero ∧
    Time.zero ≠ clock2023.Add defaultCertExpireTime ∧
    (update (freshHcc clock2023)
      (World.answering 200 (.ok (docOf markerlessAndValidCerts)) clock2023)).state.nextExpire = Time.zero ∧
    (update (freshHcc clock2023)
      (World.answering 200
        (.ok (docOf (markerlessAndValidCerts.filter (fun c => hasMarker c.Cert)))) clock2023)).state.nextExpire
      = timeUnix 1700000100 := by
  refine ⟨?_, ?_, ?_, ?_, ?_, ?_⟩ <;> decide

/-- C3 as stated fails: of one unparsable and two valid certificates the
unparsable one is not in the cache after a successful `update`. -/
theorem update_unparsable_not_stored_counterexample :
    (update (freshHcc clock2023) (World.answering 200 (.ok (docOf mixedCerts)) clock2023)).err = none ∧
    hasMarker "k=soon".toList = true ∧ parses "k=soon".toList = false ∧
    getCertificate
      (update (freshHcc clock2023) (World.answering 200 (.ok (docOf mixedCerts)) clock2023)).state
      "app.bad".toList = ([], some ErrCertNotFound) := by
  refine ⟨?_, ?_, ?_, ?_⟩ <;> decide

/-- C3, as amended: after a successful `update`, a certificate of the response
whose marker does not fail to parse is in the cache under its appid, unless a
later such certificate of the response has the same appid; a certificate whose
marker fails to parse is skipped: an appid that only such certificates of the
response carry is served exactly as before the update, and the cache is the
one that the response without those certificates gives. -/
theorem update_stores_parsed (h : Hcc) (w : World) (certs : Certificates)
    (hf : Fetches h w certs) :
    (∀ (pre post : List Certificate) (c : Certificate),
      certs.Certificates = pre ++ c :: post → parses c.Cert = true →
      (∀ d ∈ post, d.AppID = c.AppID → parses d.Cert = false) →
      getCertificate (update h w).state c.AppID = (c.Cert, none)) ∧
    (∀ a : GoStr, (∀ d ∈ certs.Certificates, d.AppID = a → parses d.Cert = false) →
      getCertificate (update h w).state a = getCertificate h a) ∧
    (update h w).state.certs =
      (updateLoop (certs.Certificates.filter (fun c => parses c.Cert))
        (w.nowSentinel.Add (365 * 24 * Hour)) h.certs).2 := by
  have hstate := (update_of_fetches h w certs hf).2
  refine ⟨?_, ?_, ?_⟩
  · intro pre post c hsplit hc hlast
    rw [hstate]
    simp only [getCertificate, SyncMap.Load]
    rw [hsplit, updateLoop_append]
    simp only [updateLoop]
    cases hx : checkExpire c.Cert with
    | error k => simp [parses, hx] at hc
    | ok exp =>
      simp only
      rw [updateLoop_snd_frame post _ _ c.AppID hlast]
      simp [SyncMap.Store]
  · intro a ha
    rw [hstate]
    simp only [getCertificate, SyncMap.Load]
    rw [updateLoop_snd_frame certs.Certificates _ _ a ha]
  · rw [hstate, updateLoop_filter_parses]

/-- C3 at a concrete input: on a cache that serves an older certificate for
`app.bad`, the mixed batch stores its two valid certificates and leaves the
older certificate of `app.bad` in place of the unparsable one. -/
theorem update_stores_parsed_witness :
    getCertificate
      (update staleHcc (World.answering 200 (.ok (docOf mixedCerts)) clock2023)).state
      "app.a".toList = ("k=1700000100".toList, none) ∧
    getCertificate
      (update staleHcc (World.answering 200 (.ok (docOf mixedCerts)) clock2023)).state
      "app.bad".toList = ("k=1690000000".toList, none) :=
  ⟨(update_stores_parsed staleHcc (World.answering 200 (.ok (docOf mixedCerts)) clock2023)
      (docOf mixedCerts) (fetches_answering _ _ _ _ rfl)).1
      [{ AppID := "app.bad".toList, Cert := "k=soon".toList }]
      [{ AppID := "app.b".toList, Cert := "k=1700000200".toList }]
      { AppID := "app.a".toList, Cert := "k=1700000100".toList }
      rfl (by decide) (by decide),
   ((update_stores_parsed staleHcc (World.answering 200 (.ok (docOf mixedCerts)) clock2023)
      (docOf mixedCerts) (fetches_answering _ _ _ _ rfl)).2.1 "app.bad".toList
      (by decide)).trans (by decide)⟩

/-- C4: certificates whose marker fails to parse do not count for the deadline:
a successful `update` sets the same `nextExpire` as it does on the response
with those certificates removed, at the same clock readings. -/
theorem update_nextExpire_skips_unparsable (h : Hcc) (w w2 : World) (certs : Certificates)
    (hf : Fetches h w certs)
    (hf2 : Fetches h w2
      { certs with Certificates := certs.Certificates.filter (fun c => parses c.Cert) })
    (hs : w2.nowSentinel = w.nowSentinel) (hn : w2.nowFallback = w.nowFallback) :
    (update h w).state.nextExpire = (update h w2).state.nextExpire := by
  rw [(update_of_fetches h w certs hf).2, (update_of_fetches h w2 _ hf2).2]
  simp only [hs, hn, updateLoop_filter_parses]

/-- C4 at a concrete input: one unparsable and two valid certificates give the
deadline of the two valid ones. -/
theorem update_nextExpire_skips_unparsable_witness :
    (update (freshHcc clock2023) (World.answering 200 (.ok (docOf mixedCerts)) clock2023)).state.nextExpire
      = (update (freshHcc clock2023)
          (World.answering 200 (.ok (docOf (mixedCerts.filter (fun c => parses c.Cert)))) clock2023)).state.nextExpire :=
  update_nextExpire_skips_unparsable (freshHcc clock2023)
    (World.answering 200 (.ok (docOf mixedCerts)) clock2023)
    (World.answering 200 (.ok (docOf (mixedCerts.filter (fun c => parses c.Cert)))) clock2023)
    (docOf mixedCerts) (fetches_answering _ _ _ _ rfl) (fetches_answering _ _ _ _ rfl) rfl rfl

/-- C5: a successful `update` on a response without certificates sets
`nextExpire` to the clock reading of the fallback branch plus the default of
30 minutes; when the refresh is one instant this is `lastRefreshed` plus 30
minutes, and it is not the sentinel of that instant plus 365 days. -/
theorem update_empty_response_default (h : Hcc) (w : World) (certs : Certificates)
    (hf : Fetches h w certs) (hnil : certs.Certificates = []) :
    (update h w).state.nextExpire = w.nowFallback.Add (30 * Minute) ∧
    (w.nowFallback = w.nowRefreshed →
      (update h w).state.nextExpire = (update h w).state.lastRefreshed.Add (30 * Minute)) ∧
    (w.nowFallback = w.nowSentinel →
      (update h w).state.nextExpire ≠ w.nowSentinel.Add (365 * 24 * Hour)) := by
  have hne : (update h w).state.nextExpire = w.nowFallback.Add (30 * Minute) := by
    rw [(update_of_fetches h w certs hf).2, hnil]
    simp only [updateLoop, ne_eq, not_true_eq_false, if_false]
    rfl
  refine ⟨hne, ?_, ?_⟩
  · intro heq
    rw [hne, (update_of_fetches h w certs hf).2, heq]
  · intro heq
    rw [hne, heq]
    exact Time.Add_default_ne_sentinel w.nowSentinel

/-- C5 at a concrete input: an empty response at `clock2023`. -/
theorem update_empty_response_default_witness :
    (update (freshHcc clock2023) (World.answering 200 (.ok (docOf [])) clock2023)).state.nextExpire
      = clock2023.Add (30 * Minute) :=
  (update_empty_response_default (freshHcc clock2023)
    (World.answering 200 (.ok (docOf [])) clock2023) (docOf []) (fetches_answering _ _ _ _ rfl) rfl).1

/-! ## Lookup -/

/-- C6: `getCertificate` returns `ErrCertNotFound` exactly when the identity is
absent from the cache, and then with the empty string; a stored identity gives
its payload with a nil error, so the two outcomes exclude each other; every
lookup on the cache `NewHCC` builds is a miss; and the payload served is the
one stored last under the identity. -/
theorem getCertificate_found_iff (h : Hcc) (id : GoStr) :
    ((getCertificate h id).2 = some ErrCertNotFound ↔ h.certs.Load id = none) ∧
    (h.certs.Load id = none → getCertificate h id = ([], some ErrCertNotFound)) ∧
    (∀ v, h.certs.Load id = some v → getCertificate h id = (v, none)) ∧
    ((getCertificate h id).2 = none ↔ ∃ v, h.certs.Load id = some v) ∧
    (∀ cfg prov now1 now2,
      getCertificate (NewHCC cfg prov now1 now2).1 id = ([], some ErrCertNotFound)) ∧
    (∀ v v2, getCertificate { h with certs := (h.certs.Store id v).Store id v2 } id = (v2, none)) ∧
    (∀ k v, k ≠ id →
      getCertificate { h with certs := h.certs.Store k v } id = getCertificate h id) := by
  refine ⟨?_, ?_, ?_, ?_, ?_, ?_, ?_⟩
  · unfold getCertificate
    cases hl : h.certs.Load id <;> simp
  · intro hl
    simp [getCertificate, hl]
  · intro v hl
    simp [getCertificate, hl]
  · unfold getCertificate
    cases hl : h.certs.Load id <;> simp
  · intro cfg prov now1 now2
    rfl
  · intro v v2
    simp [getCertificate, SyncMap.Load, SyncMap.Store]
  · intro k v hk
    have hk2 : ¬ id = k := fun e => hk e.symm
    simp [getCertificate, SyncMap.Load, SyncMap.Store, hk2]

/-! ## Frame and failure of `update` -/

/-- An `update` either fails and leaves the receiver as it was, or went through
the authority call. -/
theorem update_cases (h : Hcc) (w : World) :
    ((update h w).err ≠ none ∧ (update h w).state = h) ∨
      ∃ certs, Fetches h w certs := by
  unfold update Fetches
  cases h1 : w.newRequestErr (updateURL h) with
  | some e => left; simp [h1]
  | none =>
    cases h2 : h.token () with
    | error e => left; simp [h1, h2]
    | ok token =>
      cases h3 : w.httpDo { method := MethodGet, url := updateURL h,
                            header := [(principalAuthHeader, token)] } with
      | error e => left; simp [h1, h2, h3]
      | ok res =>
        by_cases h4 : res.StatusCode = 200
        · cases h5 : res.decoded with
          | error e => left; simp [h1, h2, h3, h4, h5]
          | ok certs => right; exact ⟨certs, rfl, token, res, rfl, h3, h4, h5⟩
        · left; simp [h1, h2, h3, h4]

/-- The document a world answers with is the one the call decodes. -/
theorem fetches_answering_inv (h : Hcc) (code : Int) (doc certs : Certificates) (now : Time)
    (hf : Fetches h (World.answering code (.ok doc) now) certs) : certs = doc := by
  obtain ⟨_, token, res, _, h3, _, h5⟩ := hf
  simp only [World.answering, Except.ok.injEq] at h3
  rw [← h3] at h5
  simp only [Except.ok.injEq] at h5
  exact h5.symm

/-- C7: `update` replaces only what the response names: an identity that is no
appid of the response is served after the update exactly as before it. -/
theorem update_frame (h : Hcc) (w : World) (id : GoStr)
    (hid : ∀ certs, Fetches h w certs → ∀ c ∈ certs.Certificates, c.AppID ≠ id) :
    getCertificate (update h w).state id = getCertificate h id := by
  rcases update_cases h w with ⟨_, hs⟩ | ⟨certs, hf⟩
  · rw [hs]
  · rw [(update_of_fetches h w certs hf).2]
    simp only [getCertificate, SyncMap.Load]
    rw [updateLoop_snd_frame certs.Certificates _ _ id
      (fun c hc he => absurd he (hid certs hf c hc))]

/-- C7 at a concrete input: the certificate of `app.z` survives an update whose
response names three other identities. -/
theorem update_frame_witness :
    getCertificate
      (update seededHcc (World.answering 200 (.ok (docOf validCerts)) clock2023)).state "app.z".toList
      = ("k=1690000000".toList, none) :=
  (update_frame seededHcc (World.answering 200 (.ok (docOf validCerts)) clock2023) "app.z".toList
    (fun certs hf => by
      rw [fetches_answering_inv _ _ _ _ _ hf]
      decide)).trans (by decide)

/-- C8: when the authority answers with a status code other than 200, `update`
returns the status error and the receiver is what it was: cache, `nextExpire`
and `lastRefreshed` are unchanged and every lookup answers as before. -/
theorem update_status_failure (h : Hcc) (w : World) (token : GoStr) (res : Response)
    (hu : w.newRequestErr (updateURL h) = none) (ht : h.token () = .ok token)
    (hdo : w.httpDo { method := MethodGet, url := updateURL h,
                      header := [(principalAuthHeader, token)] } = .ok res)
    (hcode : res.StatusCode ≠ 200) :
    (update h w).err = some (.statusCode (updateURL h) res.StatusCode) ∧
    (update h w).state = h ∧
    (update h w).state.nextExpire = h.nextExpire ∧
    (update h w).state.lastRefreshed = h.lastRefreshed ∧
    ∀ id, getCertificate (update h w).state id = getCertificate h id := by
  have hs : (update h w).state = h := by
    simp only [update, hu, ht, hdo]
    simp [hcode]
  refine ⟨?_, hs, by rw [hs], by rw [hs], fun id => by rw [hs]⟩
  simp only [update, hu, ht, hdo]
  simp [hcode]

/-- C8 at a concrete input: a 503 answer leaves the seeded cache serving
`app.z`. -/
theorem update_status_failure_witness :
    (update seededHcc (World.answering 503 (.ok (docOf validCerts)) clock2023)).err
      = some (.statusCode (updateURL seededHcc) 503) ∧
    getCertificate
      (update seededHcc (World.answering 503 (.ok (docOf validCerts)) clock2023)).state "app.z".toList
      = ("k=1690000000".toList, none) := by
  have h := update_status_failure seededHcc (World.answering 503 (.ok (docOf validCerts)) clock2023)
    "tok".toList { StatusCode := 503, decoded := .ok (docOf validCerts) } rfl rfl rfl (by decide)
  exact ⟨h.1, (h.2.2.2.2 _).trans (by decide)⟩

/-! ## Parsing the expiry marker -/

theorem digitVal_digitChar (d : Nat) (hd : d < 10) : digitVal (digitChar d) = some d := by
  interval_cases d <;> rfl

theorem digitChar_ne_sign (d : Nat) (hd : d < 10) : digitChar d ≠ '+' ∧ digitChar d ≠ '-' := by
  interval_cases d <;> decide

theorem maxUint64_eq : maxUint64 = 18446744073709551615 := by decide

theorem parseUintLoop_digit (d : Nat) (hd : d < 10) (n : Nat) (acc : GoStr)
    (hn : n * 10 + d ≤ maxUint64) :
    parseUintLoop (digitChar d :: acc) n = parseUintLoop acc (n * 10 + d) := by
  have hmax := maxUint64_eq
  have h1 : ¬ d ≥ 10 := by omega
  have h2 : ¬ n ≥ maxUint64 / 10 + 1 := by omega
  have h3 : ¬ n * 10 + d > maxUint64 := by omega
  simp only [parseUintLoop, digitVal_digitChar d hd, h1, h2, h3, if_false]

/-- Reading back the digits that `natDecAux` writes in front of `acc`. -/
theorem parseUintLoop_natDecAux (fuel : Nat) :
    ∀ (n : Nat) (acc : GoStr), n < fuel → n ≤ maxUint64 →
      parseUintLoop (natDecAux fuel n acc) 0 = parseUintLoop acc n := by
  induction fuel with
  | zero => intro n acc h; omega
  | succ f ih =>
    intro n acc hlt hmax
    unfold natDecAux
    by_cases h10 : n < 10
    · rw [if_pos h10, parseUintLoop_digit n h10 0 acc (by omega)]
      simp
    · rw [if_neg h10, ih (n / 10) _ (by omega) (by omega),
        parseUintLoop_digit (n % 10) (Nat.mod_lt _ (by decide)) (n / 10) acc (by omega)]
      congr 1
      omega

/-- The digits written by `natDecAux` start with a digit character. -/
theorem natDecAux_head (fuel : Nat) :
    ∀ (n : Nat) (acc : GoStr),
      ((∃ d, d < 10 ∧ ∃ rest, acc = digitChar d :: rest) ∨ 0 < fuel) →
      ∃ d, d < 10 ∧ ∃ rest, natDecAux fuel n acc = digitChar d :: rest := by
  induction fuel with
  | zero =>
    intro n acc h
    rcases h with h | h
    · exact h
    · omega
  | succ f ih =>
    intro n acc _
    unfold natDecAux
    by_cases h10 : n < 10
    · rw [if_pos h10]; exact ⟨n, h10, acc, rfl⟩
    · rw [if_neg h10]
      exact ih _ _ (Or.inl ⟨n % 10, Nat.mod_lt _ (by decide), acc, rfl⟩)

theorem parseUint_natDec (n : Nat) (hn : n ≤ maxUint64) : parseUint (natDec n) = .ok n := by
  obtain ⟨d, _, rest, hrest⟩ := natDecAux_head (n + 1) n [] (Or.inr (by omega))
  have h := parseUintLoop_natDecAux (n + 1) n [] (by omega) hn
  unfold natDec at *
  rw [hrest] at h ⊢
  simp only [parseUint]
  rw [h]
  rfl

/-- `ParseInt` reads back the decimal rendering of every `int64`. -/
theorem parseInt_intDec (n : Int) (hn : isInt64 n) : parseInt (intDec n) = .ok n := by
  obtain ⟨hlo, hhi⟩ := hn
  have hmax := maxUint64_eq
  unfold minInt64 at hlo
  unfold maxInt64 at hhi
  have hu : parseUint (natDec n.natAbs) = .ok n.natAbs := parseUint_natDec _ (by omega)
  unfold intDec
  by_cases hneg : n < 0
  · rw [if_pos hneg]
    simp only [parseInt, decide_True, Bool.not_true, Bool.false_eq_true, false_and, if_false,
      true_and, or_true, if_true, hu]
    rw [if_neg (by omega)]
    congr 1
    omega
  · rw [if_neg hneg]
    obtain ⟨d, hd, rest, hrest⟩ := natDecAux_head (n.natAbs + 1) n.natAbs [] (Or.inr (by omega))
    have hrest2 : natDec n.natAbs = digitChar d :: rest := hrest
    have hsign := digitChar_ne_sign d hd
    rw [hrest2] at hu ⊢
    simp only [parseInt, hsign.1, hsign.2, or_self, if_false, hu]
    simp only [decide_False, Bool.not_false, true_and, Bool.false_eq_true, false_and, if_false]
    rw [if_neg (by omega)]
    congr 1
    omega

theorem checkExpireParts_skip (pre : List GoStr) (rest : List GoStr)
    (hpre : ∀ p ∈ pre, stringsHasPrefix p "k=".toList = false) :
    checkExpireParts (pre ++ rest) = checkExpireParts rest := by
  induction pre with
  | nil => rfl
  | cons p ps ih =>
    rw [List.cons_append, checkExpireParts.eq_2,
      if_neg (by rw [hpre p (List.mem_cons_self _ _)]; exact Bool.false_ne_true)]
    exact ih (fun q hq => hpre q (List.mem_cons_of_mem _ hq))

/-- C9: when the first field of the payload that starts with `k=` is `k=`
followed by the decimal rendering of an `int64` value `n`, `checkExpire`
returns `time.Unix(n, 0)` and no error, whatever the other fields are. -/
theorem checkExpire_exact (n : Int) (cert : GoStr) (pre post : List GoStr)
    (hn : isInt64 n)
    (hsplit : stringsSplit cert ';' = pre ++ ("k=".toList ++ intDec n) :: post)
    (hpre : ∀ p ∈ pre, stringsHasPrefix p "k=".toList = false) :
    checkExpire cert = .ok (timeUnix n) := by
  unfold checkExpire
  rw [hsplit, checkExpireParts_skip pre _ hpre]
  have hp : stringsHasPrefix ("k=".toList ++ intDec n) "k=".toList = true := by
    simp [stringsHasPrefix]
  have htrim : stringsTrimPrefix ("k=".toList ++ intDec n) "k=".toList = intDec n := by
    unfold stringsTrimPrefix
    rw [if_pos hp]
    simp
  unfold checkExpireParts
  rw [if_pos hp, htrim, parseInt_intDec n hn]

/-- C9 at the payload of the specification: `k=1700000000;other=stuff` gives
exactly 1700000000 seconds since the epoch. -/
theorem checkExpire_exact_witness :
    checkExpire "k=1700000000;other=stuff".toList = .ok (timeUnix 1700000000) ∧
    (timeUnix 1700000000).sec = 1700000000 + unixToInternal ∧ (timeUnix 1700000000).nsec = 0 :=
  ⟨checkExpire_exact 1700000000 "k=1700000000;other=stuff".toList [] ["other=stuff".toList]
    (by decide) (by decide) (by decide), by decide, by decide⟩

/-! ## The request to the authority -/

theorem updateURL_eq (h : Hcc) :
    updateURL h =
      "https://zts.athenz.yahoo.co.jp:4443/wsca/v1/caontainercerts/mh/".toList ++ h.hostname
        ++ "?d=3600&ip=".toList ++ queryEscape h.ip := by
  have e1 : "https://".toList ++ zts ++ "/caontainercerts/mh/".toList
      = "https://zts.athenz.yahoo.co.jp:4443/wsca/v1/caontainercerts/mh/".toList := by decide
  have e2 : "?d=".toList ++ intDec (Int.tdiv Hour Second) ++ "&ip=".toList = "?d=3600&ip=".toList := by
    decide
  unfold updateURL
  rw [e1, ← e2]
  simp only [List.append_assoc]

/-- C10: with hostname `h.hostname`, address `h.ip` and a token provider that
returns `t`, the requests `update` hands to the HTTP client are, when
`http.NewRequest` accepts the URL, exactly one: a GET to the authority URL for
that hostname with `d=3600` and the query-escaped address, carrying the header
`Yahoo-Principal-Auth` with value `t`; when the URL is refused there is none. -/
theorem update_request (h : Hcc) (w : World) (t : GoStr) (ht : h.token () = .ok t) :
    (update h w).sent =
      if (w.newRequestErr (updateURL h)).isNone then
        [{ method := "GET".toList
           url := "https://zts.athenz.yahoo.co.jp:4443/wsca/v1/caontainercerts/mh/".toList
             ++ h.hostname ++ "?d=3600&ip=".toList ++ queryEscape h.ip
           header := [("Yahoo-Principal-Auth".toList, t)] }]
      else [] := by
  rw [← updateURL_eq h]
  have hreq : ({ method := "GET".toList, url := updateURL h,
                 header := [("Yahoo-Principal-Auth".toList, t)] } : Request)
      = { method := MethodGet, url := updateURL h, header := [(principalAuthHeader, t)] } := rfl
  rw [hreq]
  unfold update
  cases h1 : w.newRequestErr (updateURL h) with
  | some e => simp only [h1, Option.isNone_some, Bool.false_eq_true, if_false]
  | none =>
    simp only [h1, ht, Option.isNone_none, if_true]
    cases h3 : w.httpDo { method := MethodGet, url := updateURL h,
                          header := [(principalAuthHeader, t)] } with
    | error e => rfl
    | ok res =>
      simp only
      by_cases h4 : res.StatusCode = 200
      · simp only [h4, ne_eq, not_true_eq_false, if_false]
        cases h5 : res.decoded <;> rfl
      · simp only [ne_eq, h4, not_false_eq_true, if_true]

/-- C10 at a concrete input: host `host.example` at `10.0.0.1` with token `tok`. -/
theorem update_request_witness :
    (update (freshHcc clock2023) (World.answering 200 (.ok (docOf [])) clock2023)).sent =
      [{ method := "GET".toList
         url := "https://zts.athenz.yahoo.co.jp:4443/wsca/v1/caontainercerts/mh/host.example?d=3600&ip=10.0.0.1".toList
         header := [("Yahoo-Principal-Auth".toList, "tok".toList)] }] :=
  (update_request (freshHcc clock2023) (World.answering 200 (.ok (docOf [])) clock2023)
    "tok".toList rfl).trans (by decide)

/-! ## The scheduler -/

theorem certUpdaterStep_none_iff (s : Updater) (t : Tick) :
    certUpdaterStep s t = none ↔ t.done = true := by
  unfold certUpdaterStep
  cases hd : t.done
  · simp only [Bool.false_eq_true, if_false, iff_false]
    by_cases ha : t.now.After s.h.nextExpire = true
    · simp [ha]
    · simp [ha]
  · simp

theorem certUpdaterRun_not_done (ticks : List Tick) :
    ∀ s : Updater, (∀ t ∈ ticks, t.done = false) → (certUpdaterRun s ticks).2 = false := by
  induction ticks with
  | nil => intro s _; rfl
  | cons t ts ih =>
    intro s hall
    have ht : t.done = false := hall t (List.mem_cons_self _ _)
    rw [certUpdaterRun]
    cases hstep : certUpdaterStep s t with
    | none =>
      rw [(certUpdaterStep_none_iff s t).mp hstep] at ht
      exact absurd ht (by simp)
    | some s2 => exact ih s2 (fun u hu => hall u (List.mem_cons_of_mem _ hu))

theorem certUpdaterRun_returns (ticks : List Tick) :
    ∀ s : Updater, (certUpdaterRun s ticks).2 = true → ∃ t ∈ ticks, t.done = true := by
  induction ticks with
  | nil => intro s h; simp [certUpdaterRun] at h
  | cons t ts ih =>
    intro s h
    rw [certUpdaterRun] at h
    cases hstep : certUpdaterStep s t with
    | none => exact ⟨t, List.mem_cons_self _ _, (certUpdaterStep_none_iff s t).mp hstep⟩
    | some s2 =>
      rw [hstep] at h
      obtain ⟨u, hu, hd⟩ := ih s2 h
      exact ⟨u, List.mem_cons_of_mem _ hu, hd⟩

/-- C11: one iteration of the scheduler returns exactly when the context is
cancelled; while it is not cancelled the iteration calls `update` exactly when
the clock reading is after `nextExpire`, and otherwise changes nothing; a
failing `update` is logged, leaves the receiver (so the deadline) as it was and
the loop goes on, so the refresh is retried; over any sequence of iterations
the goroutine has returned only if one of them saw the cancellation. -/
theorem certUpdater_step_spec (s : Updater) (t : Tick) :
    (certUpdaterStep s t = none ↔ t.done = true) ∧
    (t.done = false → t.now.After s.h.nextExpire = true →
      ∃ s2, certUpdaterStep s t = some s2 ∧ s2.updates = s.updates + 1 ∧
        s2.h = (update s.h t.world).state ∧ s2.err = (update s.h t.world).err) ∧
    (t.done = false → t.now.After s.h.nextExpire = false → certUpdaterStep s t = some s) ∧
    (t.done = false → ∀ s2, certUpdaterStep s t = some s2 →
      (s2.updates = s.updates + 1 ↔ t.now.After s.h.nextExpire = true)) ∧
    (t.done = false → t.now.After s.h.nextExpire = true →
      ∀ e, (update s.h t.world).err = some e →
        ∃ s2, certUpdaterStep s t = some s2 ∧ s2.h = s.h ∧ s2.logged = s.logged ++ [e] ∧
          ∀ t2 : Tick, t2.done = false → t2.now.After s.h.nextExpire = true →
            ∃ s3, certUpdaterStep s2 t2 = some s3 ∧ s3.updates = s.updates + 2) ∧
    (∀ ticks, (certUpdaterRun s ticks).2 = true → ∃ u ∈ ticks, u.done = true) ∧
    (∀ ticks, (∀ u ∈ ticks, u.done = false) → (certUpdaterRun s ticks).2 = false) := by
  refine ⟨certUpdaterStep_none_iff s t, ?_, ?_, ?_, ?_, fun ticks => certUpdaterRun_returns ticks s,
    fun ticks => certUpdaterRun_not_done ticks s⟩
  · intro hd ha
    refine ⟨{ h := (update s.h t.world).state
              err := (update s.h t.world).err
              logged := match (update s.h t.world).err with
                | some e => s.logged ++ [e]
                | none => s.logged
              updates := s.updates + 1 }, ?_, rfl, rfl, rfl⟩
    simp only [certUpdaterStep, hd, ha, Bool.false_eq_true, if_false, if_true]
  · intro hd ha
    simp only [certUpdaterStep, hd, ha, Bool.false_eq_true, if_false]
  · intro hd s2 hs2
    by_cases ha : t.now.After s.h.nextExpire = true
    · simp only [certUpdaterStep, hd, ha, Bool.false_eq_true, if_false, if_true,
        Option.some.injEq] at hs2
      rw [← hs2]
      simp [ha]
    · simp only [certUpdaterStep, hd, ha, Bool.false_eq_true, if_false, Option.some.injEq] at hs2
      rw [← hs2]
      simp [ha]
  · intro hd ha e he
    have hstate : (update s.h t.world).state = s.h := by
      rcases update_cases s.h t.world with ⟨_, hs⟩ | ⟨certs, hf⟩
      · exact hs
      · rw [(update_of_fetches _ _ certs hf).1] at he
        exact absurd he (by simp)
    refine ⟨{ h := (update s.h t.world).state
              err := (update s.h t.world).err
              logged := match (update s.h t.world).err with
                | some e => s.logged ++ [e]
                | none => s.logged
              updates := s.updates + 1 }, ?_, hstate, ?_, ?_⟩
    · simp only [certUpdaterStep, hd, ha, Bool.false_eq_true, if_false, if_true]
    · simp only [he]
    · intro t2 hd2 ha2
      refine ⟨{ h := (update s.h t2.world).state
                err := (update s.h t2.world).err
                logged := match (update s.h t2.world).err with
                  | some e2 => (s.logged ++ [e]) ++ [e2]
                  | none => s.logged ++ [e]
                updates := s.updates + 1 + 1 }, ?_, rfl⟩
      simp only [certUpdaterStep, hd2, hstate, ha2, he, Bool.false_eq_true, if_false, if_true]

/-! ## The TLS policy -/

/-- The client authentication of a policy that `NewTLSConfig` returns. -/
theorem NewTLSConfig_ok_auth (w : TLSWorld) (cfg : ConfigTLS) (t : TLSConfig)
    (hok : NewTLSConfig w cfg = .ok t) :
    (t.ClientAuth = .RequireAndVerifyClientCert ↔ w.resolve cfg.CA ≠ []) ∧
    (t.ClientAuth = .NoClientCert ↔ w.resolve cfg.CA = []) ∧
    (t.ClientCAs.isSome = true ↔ w.resolve cfg.CA ≠ []) := by
  unfold NewTLSConfig at hok
  simp only at hok
  split_ifs at hok with h1 h2
  · cases hl : w.loadX509KeyPair (w.resolve cfg.Cert) (w.resolve cfg.Key) with
    | error e => rw [hl] at hok; simp at hok
    | ok crt =>
      rw [hl] at hok
      simp only at hok
      cases hp : w.newX509CertPool (w.resolve cfg.CA) with
      | error e => rw [hp] at hok; simp at hok
      | ok pool =>
        rw [hp] at hok
        simp only [Except.ok.injEq] at hok
        rw [← hok]
        simp [h2]
  · cases hl : w.loadX509KeyPair (w.resolve cfg.Cert) (w.resolve cfg.Key) with
    | error e => rw [hl] at hok; simp at hok
    | ok crt =>
      rw [hl] at hok
      simp only [Except.ok.injEq] at hok
      rw [← hok]
      have h3 : w.resolve cfg.CA = [] := by simpa using h2
      simp [h3]

/-- C12: on every configuration on which `NewTLSConfig` succeeds, the client
authentication is `RequireAndVerifyClientCert` exactly when a trust-anchor path
was supplied and `NoClientCert` exactly when none was, with the pool attached
in the first case only; and a certificate and key that load, without a
trust-anchor path, are a successful configuration. -/
theorem NewTLSConfig_clientAuth (w : TLSWorld) (cfg : ConfigTLS) :
    (∀ t, NewTLSConfig w cfg = .ok t →
      (t.ClientAuth = .RequireAndVerifyClientCert ↔ w.resolve cfg.CA ≠ []) ∧
      (t.ClientAuth = .NoClientCert ↔ w.resolve cfg.CA = []) ∧
      (t.ClientCAs.isSome = true ↔ w.resolve cfg.CA ≠ [])) ∧
    (∀ crt, w.resolve cfg.Cert ≠ [] → w.resolve cfg.Key ≠ [] →
      w.loadX509KeyPair (w.resolve cfg.Cert) (w.resolve cfg.Key) = .ok crt →
      w.resolve cfg.CA = [] →
      ∃ t, NewTLSConfig w cfg = .ok t ∧ t.ClientAuth = .NoClientCert ∧ t.ClientCAs = none) := by
  refine ⟨fun t hok => NewTLSConfig_ok_auth w cfg t hok, ?_⟩
  intro crt hc hk hl hca
  have hne : ¬ (w.resolve cfg.Cert = [] ∨ w.resolve cfg.Key = []) := by
    rintro (h | h)
    · exact hc h
    · exact hk h
  refine ⟨{ MinVersion := VersionTLS12
            CurvePreferences := [.CurveP256, .CurveP384, .CurveP521, .X25519]
            SessionTicketsDisabled := true
            Certificates := [crt]
            ClientCAs := none
            ClientAuth := .NoClientCert }, ?_, rfl, rfl⟩
  unfold NewTLSConfig
  simp only
  rw [if_neg hne, hl]
  simp only
  rw [if_neg (by rw [hca]; exact fun h => h rfl)]

/-- C12 at concrete inputs: certificate, key and trust anchor give
`RequireAndVerifyClientCert`; certificate and key alone succeed with
`NoClientCert`. -/
theorem NewTLSConfig_clientAuth_witness :
    (NewTLSConfig tlsWorldFull testConfigTLS
        = .ok (testPolicy (some { caPath := "./assets/dummyCa.pem".toList })
            .RequireAndVerifyClientCert)) ∧
    (NewTLSConfig tlsWorldNoCA testConfigTLS = .ok (testPolicy none .NoClientCert)) ∧
    ((testPolicy none .NoClientCert).ClientAuth = .NoClientCert ↔
      tlsWorldNoCA.resolve testConfigTLS.CA = []) :=
  ⟨by decide, by decide,
    ((NewTLSConfig_clientAuth tlsWorldNoCA testConfigTLS).1 (testPolicy none .NoClientCert)
      (by decide)).2.1⟩

/-- C13: when the certificate path or the key path resolves to nothing,
`NewTLSConfig` fails with `Cert/Key path not found`, whatever the trust-anchor
path is, and so returns no policy. -/
theorem NewTLSConfig_missing_credential (w : TLSWorld) (cfg : ConfigTLS)
    (hmiss : w.resolve cfg.Cert = [] ∨ w.resolve cfg.Key = []) :
    NewTLSConfig w cfg = .error (.other "Cert/Key path not found".toList) ∧
    ∀ t, NewTLSConfig w cfg ≠ .ok t := by
  have h : NewTLSConfig w cfg = .error (.other "Cert/Key path not found".toList) := by
    unfold NewTLSConfig
    simp only
    rw [if_pos hmiss]
  exact ⟨h, fun t ht => by rw [h] at ht; exact absurd ht (by simp)⟩

/-- C13 at concrete inputs: without the certificate variable, and without the
key variable, each with the trust anchor present. -/
theorem NewTLSConfig_missing_credential_witness :
    NewTLSConfig tlsWorldNoCert testConfigTLS = .error (.other "Cert/Key path not found".toList) ∧
    NewTLSConfig tlsWorldNoKey testConfigTLS = .error (.other "Cert/Key path not found".toList) :=
  ⟨(NewTLSConfig_missing_credential tlsWorldNoCert testConfigTLS (Or.inl (by decide))).1,
   (NewTLSConfig_missing_credential tlsWorldNoKey testConfigTLS (Or.inr (by decide))).1⟩

/-! ## Construction of the token service -/

theorem timeParseDuration_nil (groups : GoStr → GoStr → Except GoStr Int) :
    timeParseDuration groups [] = .error "time: invalid duration ".toList := by
  unfold timeParseDuration
  simp only
  rw [if_neg (by decide), if_pos trivial]
  rfl

/-- C14: `createNtokend` rejects a refresh duration that does not parse with
`invalid token refresh duration <raw>, <parse error>`, whatever the expiration
is; with a valid refresh duration it rejects an expiration that does not parse
with `invalid token expiration <raw>, <parse error>`; `New` returns the same
errors; and the empty string is no valid duration, for either field. -/
theorem createNtokend_invalid_duration (w : TenantWorld) (cfg : ConfigToken) :
    (∀ msg, timeParseDuration w.durationGroups cfg.RefreshDuration = .error msg →
      createNtokend w cfg = .error (.other ("invalid token refresh duration ".toList
        ++ cfg.RefreshDuration ++ ", ".toList ++ msg))) ∧
    (∀ dur msg, timeParseDuration w.durationGroups cfg.RefreshDuration = .ok dur →
      timeParseDuration w.durationGroups cfg.Expiration = .error msg →
      createNtokend w cfg = .error (.other ("invalid token expiration ".toList
        ++ cfg.Expiration ++ ", ".toList ++ msg))) ∧
    (∀ (c : Config) err, c.Token = cfg → createNtokend w cfg = .error err → New w c = .error err) ∧
    (cfg.RefreshDuration = [] →
      createNtokend w cfg = .error (.other
        "invalid token refresh duration , time: invalid duration ".toList)) ∧
    (∀ dur, timeParseDuration w.durationGroups cfg.RefreshDuration = .ok dur →
      cfg.Expiration = [] →
      createNtokend w cfg = .error (.other
        "invalid token expiration , time: invalid duration ".toList)) := by
  refine ⟨?_, ?_, ?_, ?_, ?_⟩
  · intro msg h
    simp only [createNtokend, h]
  · intro dur msg h1 h2
    simp only [createNtokend, h1, h2]
  · intro c err hc h
    simp only [New, hc, h]
  · intro h
    simp only [createNtokend, h, timeParseDuration_nil]
    rfl
  · intro dur h1 h2
    simp only [createNtokend, h1, h2, timeParseDuration_nil]
    rfl

/-- C14 at the inputs of the tests: the empty configuration given to `New`,
the refresh duration `dummy`, and the expiration `dummy` after the valid
refresh duration `1s`. -/
theorem createNtokend_invalid_duration_witness :
    New testTenantWorld { Token := ConfigToken.zero }
      = .error (.other "invalid token refresh duration , time: invalid duration ".toList) ∧
    createNtokend testTenantWorld { ConfigToken.zero with RefreshDuration := "dummy".toList }
      = .error (.other
          "invalid token refresh duration dummy, time: invalid duration dummy".toList) ∧
    createNtokend testTenantWorld
        { ConfigToken.zero with RefreshDuration := "1s".toList, Expiration := "dummy".toList }
      = .error (.other "invalid token expiration dummy, time: invalid duration dummy".toList) :=
  ⟨(createNtokend_invalid_duration testTenantWorld ConfigToken.zero).2.2.1
      { Token := ConfigToken.zero } _ rfl
      ((createNtokend_invalid_duration testTenantWorld ConfigToken.zero).2.2.2.1 rfl),
   (createNtokend_invalid_duration testTenantWorld
      { ConfigToken.zero with RefreshDuration := "dummy".toList }).1
      "time: invalid duration dummy".toList (by decide),
   (createNtokend_invalid_duration testTenantWorld
      { ConfigToken.zero with RefreshDuration := "1s".toList, Expiration := "dummy".toList }).2.1
      1000000000 "time: invalid duration dummy".toList (by decide) (by decide)⟩

/-! ## The exact rule of the next refresh -/

theorem expiries_mono_none (cs : List Certificate) : ∀ t ∈ expiries cs, t.mono = none := by
  intro t ht
  obtain ⟨c, _, hc⟩ := (mem_expiries cs t).mp ht
  exact checkExpire_mono_none _ _ hc

theorem earliestOf_mem (ts : List Time) : ∀ m, earliestOf ts = some m → m ∈ ts := by
  induction ts with
  | nil => intro m h; simp [earliestOf] at h
  | cons t rest ih =>
    intro m h
    unfold earliestOf at h
    cases hr : earliestOf rest with
    | none =>
      rw [hr] at h
      simp only [Option.some.injEq] at h
      rw [← h]; exact List.mem_cons_self _ _
    | some m2 =>
      rw [hr] at h
      simp only at h
      split_ifs at h
      · simp only [Option.some.injEq] at h
        rw [← h]; exact List.mem_cons_of_mem _ (ih m2 hr)
      · simp only [Option.some.injEq] at h
        rw [← h]; exact List.mem_cons_self _ _

theorem earliestOf_eq_none (ts : List Time) : earliestOf ts = none ↔ ts = [] := by
  cases ts with
  | nil => simp [earliestOf]
  | cons t rest =>
    unfold earliestOf
    cases hr : earliestOf rest with
    | none => simp
    | some m => simp only; split_ifs <;> simp

/-- No time of the list is before the earliest one. -/
theorem earliestOf_le (ts : List Time) (hmono : ∀ t ∈ ts, t.mono = none) :
    ∀ m, earliestOf ts = some m → ∀ t ∈ ts, t.Before m = false := by
  induction ts with
  | nil => intro m h; simp [earliestOf] at h
  | cons t0 rest ih =>
    intro m h t ht
    have hmono2 : ∀ t ∈ rest, t.mono = none := fun u hu => hmono u (List.mem_cons_of_mem _ hu)
    have h0 : t0.mono = none := hmono t0 (List.mem_cons_self _ _)
    unfold earliestOf at h
    cases hr : earliestOf rest with
    | none =>
      rw [hr] at h
      simp only [Option.some.injEq] at h
      have hnil := (earliestOf_eq_none rest).mp hr
      rw [hnil] at ht
      simp only [List.mem_singleton] at ht
      rw [ht, ← h]; exact Time.Before_irrefl _
    | some m2 =>
      rw [hr] at h
      simp only at h
      have hm2 : m2.mono = none := hmono2 m2 (earliestOf_mem rest m2 hr)
      by_cases hb : m2.Before t0 = true
      · rw [if_pos hb] at h
        simp only [Option.some.injEq] at h
        rw [← h]
        rcases List.mem_cons.mp ht with rfl | hmem
        · rw [Time.Before_of_mono_none _ _ h0]
          rw [Time.Before_of_mono_none _ _ hm2] at hb
          simp only [decide_eq_true_eq, decide_eq_false_iff_not] at *
          omega
        · exact ih hmono2 m2 hr t hmem
      · rw [if_neg hb] at h
        simp only [Option.some.injEq] at h
        rw [← h]
        rcases List.mem_cons.mp ht with rfl | hmem
        · exact Time.Before_irrefl _
        · have h1 := ih hmono2 m2 hr t hmem
          have htm : t.mono = none := hmono2 t hmem
          rw [Time.Before_of_mono_none _ _ htm] at h1 ⊢
          rw [Time.Before_of_mono_none _ _ hm2] at hb
          simp only [decide_eq_true_eq, decide_eq_false_iff_not] at *
          omega

/-- The first component of the loop is a running minimum over the expiries. -/
theorem updateLoop_fst_foldl (cs : List Certificate) (e : Time) (m : SyncMap) :
    (updateLoop cs e m).1 = (expiries cs).foldl (fun acc t => if t.Before acc then t else acc) e := by
  induction cs generalizing e m with
  | nil => rfl
  | cons c rest ih =>
    unfold expiries at ih ⊢
    simp only [updateLoop, List.filterMap_cons]
    cases hc : checkExpire c.Cert with
    | error k => simp only; exact ih e m
    | ok exp => simp only [List.foldl_cons]; exact ih _ _

/-- The running minimum from a start value, by the earliest time of the list. -/
theorem foldl_min_earliestOf (ts : List Time) (hmono : ∀ t ∈ ts, t.mono = none) :
    ∀ e : Time, ts.foldl (fun acc t => if t.Before acc then t else acc) e =
      match earliestOf ts with
      | none => e
      | some m => if m.Before e then m else e := by
  induction ts with
  | nil => intro e; rfl
  | cons t rest ih =>
    intro e
    have hmono2 : ∀ t ∈ rest, t.mono = none := fun u hu => hmono u (List.mem_cons_of_mem _ hu)
    have h0 : t.mono = none := hmono t (List.mem_cons_self _ _)
    rw [List.foldl_cons, ih hmono2, earliestOf.eq_2]
    cases hr : earliestOf rest with
    | none => rfl
    | some m =>
      have hm : m.mono = none := hmono2 m (earliestOf_mem rest m hr)
      simp only
      have kt := Time.Before_of_mono_none t e h0
      have kmt := Time.Before_of_mono_none m t hm
      have kme := Time.Before_of_mono_none m e hm
      by_cases hte : t.Before e = true
      · by_cases hmt : m.Before t = true
        · have hme : m.Before e = true := by
            rw [kt] at hte; rw [kmt] at hmt; rw [kme]
            simp only [decide_eq_true_eq] at *
            omega
          simp [hte, hmt, hme]
        · simp [hte, hmt]
      · by_cases hmt : m.Before t = true
        · simp [hte, hmt]
        · have hme : ¬ m.Before e = true := by
            rw [kt] at hte; rw [kmt] at hmt; rw [kme]
            simp only [decide_eq_true_eq] at *
            omega
          simp [hte, hmt, hme]

theorem checkExpireParts_no_marker :
    ∀ parts : List GoStr,
      parts.any (fun part => stringsHasPrefix part "k=".toList) = false →
      checkExpireParts parts = .ok Time.zero := by
  intro parts
  induction parts with
  | nil => intro _; rfl
  | cons p rest ih =>
    intro h
    simp only [List.any_cons, Bool.or_eq_false_iff] at h
    rw [checkExpireParts.eq_2, if_neg (by rw [h.1]; exact Bool.false_ne_true)]
    exact ih h.2

/-- A payload without a marker gives the zero time and no error. -/
theorem checkExpire_no_marker (cert : GoStr) (h : hasMarker cert = false) :
    checkExpire cert = .ok Time.zero :=
  checkExpireParts_no_marker _ h

/-- The deadline that a successful `update` sets, by the earliest expiry. -/
theorem update_nextExpire_rule (h : Hcc) (w : World) (certs : Certificates)
    (hf : Fetches h w certs) :
    (update h w).state.nextExpire =
      match earliestOf (expiries certs.Certificates) with
      | some m =>
        if m.Before (w.nowSentinel.Add (365 * 24 * Hour)) then m
        else w.nowFallback.Add (30 * Minute)
      | none => w.nowFallback.Add (30 * Minute) := by
  rw [(update_of_fetches h w certs hf).2]
  simp only
  rw [updateLoop_fst_foldl, foldl_min_earliestOf _ (expiries_mono_none _)]
  cases hr : earliestOf (expiries certs.Certificates) with
  | none =>
    simp only [ne_eq, not_true_eq_false, if_false]
    rfl
  | some m =>
    simp only
    by_cases hb : m.Before (w.nowSentinel.Add (365 * 24 * Hour)) = true
    · have hne : m ≠ w.nowSentinel.Add (365 * 24 * Hour) := by
        intro heq
        rw [← heq, Time.Before_irrefl] at hb
        exact absurd hb (by simp)
      rw [if_pos hb, if_pos hne, if_pos hb]
    · rw [if_neg hb, if_neg (not_not.mpr rfl), if_neg hb]
      rfl

/-- C15, as amended: after a successful `update`, with `m` the earliest result
of `checkExpire` over the certificates whose marker does not fail to parse (a
payload without a marker counting as the zero time), `nextExpire` is `m` when
there is such a certificate and `m` is strictly before the sentinel, and the
fallback clock reading plus 30 minutes otherwise; so expiries at or beyond the
sentinel are ignored, and a marker-less certificate forces `nextExpire` to the
instant of the zero time when no parsed expiry is before the zero time and the
zero time is before the sentinel. -/
theorem update_nextExpire_exact (h : Hcc) (w : World) (certs : Certificates)
    (hf : Fetches h w certs) :
    ((update h w).state.nextExpire =
      match earliestOf (expiries certs.Certificates) with
      | some m =>
        if m.Before (w.nowSentinel.Add (365 * 24 * Hour)) then m
        else w.nowFallback.Add (30 * Minute)
      | none => w.nowFallback.Add (30 * Minute)) ∧
    (earliestOf (expiries certs.Certificates) = none ↔
      ∀ c ∈ certs.Certificates, parses c.Cert = false) ∧
    (∀ m, earliestOf (expiries certs.Certificates) = some m →
      (∃ c ∈ certs.Certificates, checkExpire c.Cert = .ok m) ∧
      ∀ c ∈ certs.Certificates, ∀ t, checkExpire c.Cert = .ok t → t.Before m = false) ∧
    (∀ c ∈ certs.Certificates, hasMarker c.Cert = false → checkExpire c.Cert = .ok Time.zero) ∧
    ((∀ t ∈ expiries certs.Certificates, t.Before (w.nowSentinel.Add (365 * 24 * Hour)) = false) →
      (update h w).state.nextExpire = w.nowFallback.Add (30 * Minute)) ∧
    ((∃ c ∈ certs.Certificates, hasMarker c.Cert = false) →
      (∀ t ∈ expiries certs.Certificates, t.Before Time.zero = false) →
      Time.zero.Before (w.nowSentinel.Add (365 * 24 * Hour)) = true →
      (update h w).state.nextExpire.sec = 0 ∧ (update h w).state.nextExpire.nsec = 0) := by
  have hrule := update_nextExpire_rule h w certs hf
  have hmono := expiries_mono_none certs.Certificates
  refine ⟨hrule, ?_, ?_, ?_, ?_, ?_⟩
  · rw [earliestOf_eq_none]
    constructor
    · intro hnil c hc
      cases hx : checkExpire c.Cert with
      | error k => simp [parses, hx]
      | ok t =>
        have : t ∈ expiries certs.Certificates := (mem_expiries _ _).mpr ⟨c, hc, hx⟩
        rw [hnil] at this
        cases this
    · intro hall
      cases hl : expiries certs.Certificates with
      | nil => rfl
      | cons t ts =>
        have : t ∈ expiries certs.Certificates := by rw [hl]; exact List.mem_cons_self _ _
        obtain ⟨c, hc, hx⟩ := (mem_expiries _ _).mp this
        have := hall c hc
        simp [parses, hx] at this
  · intro m hm
    refine ⟨(mem_expiries _ _).mp (earliestOf_mem _ m hm), ?_⟩
    intro c hc t ht
    exact earliestOf_le _ hmono m hm t ((mem_expiries _ _).mpr ⟨c, hc, ht⟩)
  · intro c _ hc
    exact checkExpire_no_marker _ hc
  · intro hall
    rw [hrule]
    cases hr : earliestOf (expiries certs.Certificates) with
    | none => rfl
    | some m =>
      simp only
      rw [hall m (earliestOf_mem _ m hr)]
      rfl
  · rintro ⟨c, hc, hcm⟩ hall hz
    have hzmem : Time.zero ∈ expiries certs.Certificates :=
      (mem_expiries _ _).mpr ⟨c, hc, checkExpire_no_marker _ hcm⟩
    cases hr : earliestOf (expiries certs.Certificates) with
    | none =>
      rw [(earliestOf_eq_none _).mp hr] at hzmem
      cases hzmem
    | some m =>
      have hmm := earliestOf_mem _ m hr
      have h1 := earliestOf_le _ hmono m hr Time.zero hzmem
      have h2 := hall m hmm
      have hm0 := hmono m hmm
      rw [Time.Before_of_mono_none _ _ rfl] at h1 hz
      rw [Time.Before_of_mono_none _ _ hm0] at h2
      simp only [decide_eq_false_iff_not, decide_eq_true_eq, Time.zero] at h1 h2 hz
      have hms : m.sec = 0 ∧ m.nsec = 0 := by omega
      have hb : m.Before (w.nowSentinel.Add (365 * 24 * Hour)) = true := by
        rw [Time.Before_of_mono_none _ _ hm0]
        simp only [decide_eq_true_eq]
        omega
      rw [hrule, hr]
      simp only
      rw [if_pos hb]
      exact hms

/-- C15 at a concrete input: a marker-less certificate next to a valid one
gives the zero time. -/
theorem update_nextExpire_exact_witness :
    (update (freshHcc clock2023)
      (World.answering 200 (.ok (docOf markerlessAndValidCerts)) clock2023)).state.nextExpire
      = Time.zero :=
  ((update_nextExpire_exact (freshHcc clock2023)
    (World.answering 200 (.ok (docOf markerlessAndValidCerts)) clock2023)
    (docOf markerlessAndValidCerts) (fetches_answering _ _ _ _ rfl)).1).trans (by decide)

/-- C15 as stated fails in its last clause: with a marker-less certificate and
a certificate whose expiry `-70000000000` lies before year 1, the successful
`update` sets `nextExpire` to that expiry, which is before the zero time. -/
theorem update_markerless_not_zero_counterexample :
    (update (freshHcc clock2023)
      (World.answering 200 (.ok (docOf markerlessAndAncientCerts)) clock2023)).err = none ∧
    hasMarker "v=1;payload".toList = false ∧
    checkExpire "k=-70000000000".toList = .ok (timeUnix (-70000000000)) ∧
    (update (freshHcc clock2023)
      (World.answering 200 (.ok (docOf markerlessAndAncientCerts)) clock2023)).state.nextExpire
      = timeUnix (-70000000000) ∧
    (timeUnix (-70000000000)).Before Time.zero = true ∧
    ¬ (update (freshHcc clock2023)
      (World.answering 200 (.ok (docOf markerlessAndAncientCerts)) clock2023)).state.nextExpire
      = Time.zero := by
  refine ⟨?_, ?_, ?_, ?_, ?_, ?_⟩ <;> decide

/-! ## `ParseInt` against base-10 integers -/

theorem digitVal_of_isDecDigit (c : Char) (h : isDecDigit c = true) :
    digitVal c = some (c.toNat - '0'.toNat) ∧ c.toNat - '0'.toNat < 10 := by
  unfold isDecDigit at h
  simp only [decide_eq_true_eq] at h
  have h9 : c.toNat ≤ 57 := h.2
  have e0 : '0'.toNat = 48 := rfl
  refine ⟨?_, by omega⟩
  unfold digitVal
  rw [if_pos h]

theorem isDecDigit_of_digitVal (c : Char) (d : Nat) (h : digitVal c = some d) (hd : d < 10) :
    isDecDigit c = true ∧ d = c.toNat - '0'.toNat := by
  unfold digitVal at h
  split_ifs at h with h1 h2 h3
  · simp only [Option.some.injEq] at h
    exact ⟨by simp [isDecDigit, h1], h.symm⟩
  · simp only [Option.some.injEq] at h; omega
  · simp only [Option.some.injEq] at h; omega

theorem decValueFrom_ge (s : GoStr) : ∀ n, n ≤ decValueFrom n s := by
  induction s with
  | nil => intro n; exact Nat.le_refl _
  | cons c cs ih =>
    intro n
    have := ih (n * 10 + (c.toNat - '0'.toNat))
    unfold decValueFrom at this ⊢
    rw [List.foldl_cons]
    omega

theorem parseUintLoop_of_digits (s : GoStr) :
    ∀ n, s.all isDecDigit = true → decValueFrom n s ≤ maxUint64 →
      parseUintLoop s n = .ok (decValueFrom n s) := by
  induction s with
  | nil => intro n _ _; rfl
  | cons c cs ih =>
    intro n hall hmax
    simp only [List.all_cons, Bool.and_eq_true] at hall
    obtain ⟨hdv, hd⟩ := digitVal_of_isDecDigit c hall.1
    have hstep : decValueFrom n (c :: cs) = decValueFrom (n * 10 + (c.toNat - '0'.toNat)) cs := rfl
    rw [hstep] at hmax ⊢
    have hge := decValueFrom_ge cs (n * 10 + (c.toNat - '0'.toNat))
    have hm := maxUint64_eq
    have h1 : ¬ c.toNat - '0'.toNat ≥ 10 := by omega
    have h2 : ¬ n ≥ maxUint64 / 10 + 1 := by omega
    have h3 : ¬ n * 10 + (c.toNat - '0'.toNat) > maxUint64 := by omega
    rw [parseUintLoop.eq_2]
    simp only [hdv, h1, h2, h3, if_false]
    exact ih _ hall.2 hmax

theorem parseUintLoop_ok_inv (s : GoStr) :
    ∀ n v, n ≤ maxUint64 → parseUintLoop s n = .ok v →
      s.all isDecDigit = true ∧ v = decValueFrom n s ∧ v ≤ maxUint64 := by
  induction s with
  | nil =>
    intro n v hn h
    simp only [parseUintLoop, Except.ok.injEq] at h
    exact ⟨rfl, h.symm, by omega⟩
  | cons c cs ih =>
    intro n v hn h
    rw [parseUintLoop.eq_2] at h
    cases hdv : digitVal c with
    | none => rw [hdv] at h; simp at h
    | some d =>
      rw [hdv] at h
      simp only at h
      split_ifs at h with h1 h2 h3
      have hd : d < 10 := by omega
      obtain ⟨hc, hde⟩ := isDecDigit_of_digitVal c d hdv hd
      obtain ⟨ha, hv, hm⟩ := ih (n * 10 + d) v (by omega) h
      refine ⟨by simp [hc, ha], ?_, hm⟩
      rw [hv, hde]
      rfl

theorem parseUint_ok_iff (s : GoStr) (v : Nat) :
    parseUint s = .ok v ↔
      s ≠ [] ∧ s.all isDecDigit = true ∧ decValueFrom 0 s = v ∧ v ≤ maxUint64 := by
  cases s with
  | nil => simp [parseUint]
  | cons c cs =>
    have hu : parseUint (c :: cs) = parseUintLoop (c :: cs) 0 := rfl
    rw [hu]
    constructor
    · intro h
      obtain ⟨ha, hv, hm⟩ := parseUintLoop_ok_inv (c :: cs) 0 v (by decide) h
      exact ⟨by simp, ha, hv.symm, hm⟩
    · rintro ⟨_, ha, hv, hm⟩
      rw [← hv] at hm ⊢
      exact parseUintLoop_of_digits (c :: cs) 0 ha hm

/-- The sign and range step of `ParseInt` after `ParseUint` on `body`. -/
theorem parseInt_core (neg : Bool) (body : GoStr) (v : Int) :
    (match parseUint body with
      | .error .errSyntax => (.error .errSyntax : Except NumErrKind Int)
      | .error .errRange => .error .errRange
      | .ok un =>
        if !neg ∧ un ≥ 2 ^ 63 then .error .errRange
        else if neg ∧ un > 2 ^ 63 then .error .errRange
        else .ok (if neg then -(un : Int) else (un : Int))) = .ok v ↔
    (body ≠ [] ∧ body.all isDecDigit = true ∧
      (if neg then -(decValueFrom 0 body : Int) else (decValueFrom 0 body : Int)) = v ∧
      isInt64 v) := by
  have hm := maxUint64_eq
  unfold isInt64 minInt64 maxInt64
  cases hpu : parseUint body with
  | error k =>
    have hno : ∀ un, ¬ (body ≠ [] ∧ body.all isDecDigit = true ∧ decValueFrom 0 body = un ∧
        un ≤ maxUint64) := by
      intro un hun
      rw [(parseUint_ok_iff body un).mpr hun] at hpu
      cases hpu
    constructor
    · intro h
      cases k <;> simp at h
    · rintro ⟨h1, h2, h3, h4, h5⟩
      exfalso
      refine hno (decValueFrom 0 body) ⟨h1, h2, rfl, ?_⟩
      cases neg
      · simp only [Bool.false_eq_true, if_false] at h3; omega
      · simp only [if_true] at h3; omega
  | ok un =>
    obtain ⟨h1, h2, h3, h4⟩ := (parseUint_ok_iff body un).mp hpu
    simp only [h3]
    cases neg
    · simp only [Bool.not_false, true_and, Bool.false_eq_true, false_and, if_false]
      constructor
      · intro h
        split_ifs at h with hb
        simp only [Except.ok.injEq] at h
        exact ⟨h1, h2, h, by omega, by omega⟩
      · rintro ⟨_, _, hv, hlo, hhi⟩
        rw [if_neg (by omega), hv]
    · simp only [Bool.not_true, Bool.false_eq_true, false_and, if_false, true_and, if_true]
      constructor
      · intro h
        split_ifs at h with hb
        simp only [Except.ok.injEq] at h
        exact ⟨h1, h2, h, by omega, by omega⟩
      · rintro ⟨_, _, hv, hlo, hhi⟩
        rw [if_neg (by omega), hv]

/-- `ParseInt(s, 10, 64)` succeeds with `v` exactly when `s` is the base-10
integer `v` and `v` fits in 64 signed bits. -/
theorem parseInt_ok_iff (s : GoStr) (v : Int) :
    parseInt s = .ok v ↔ decimalInt s = some v ∧ isInt64 v := by
  cases s with
  | nil => simp [parseInt, decimalInt]
  | cons c cs =>
    have hp := parseInt_core (decide (c = '-')) (if c = '+' ∨ c = '-' then cs else c :: cs) v
    have hl : parseInt (c :: cs) =
        (match parseUint (if c = '+' ∨ c = '-' then cs else c :: cs) with
          | .error .errSyntax => (.error .errSyntax : Except NumErrKind Int)
          | .error .errRange => .error .errRange
          | .ok un =>
            if !(decide (c = '-')) ∧ un ≥ 2 ^ 63 then .error .errRange
            else if (decide (c = '-')) ∧ un > 2 ^ 63 then .error .errRange
            else .ok (if (decide (c = '-')) then -(un : Int) else (un : Int))) := rfl
    have hd : decimalInt (c :: cs) =
        (if (if c = '+' ∨ c = '-' then cs else c :: cs) ≠ [] ∧
            (if c = '+' ∨ c = '-' then cs else c :: cs).all isDecDigit = true then
          some (if c = '-'
            then -(decValueFrom 0 (if c = '+' ∨ c = '-' then cs else c :: cs) : Int)
            else (decValueFrom 0 (if c = '+' ∨ c = '-' then cs else c :: cs) : Int))
        else none) := rfl
    rw [hl, hp, hd]
    generalize (if c = '+' ∨ c = '-' then cs else c :: cs) = body
    simp only [decide_eq_true_eq]
    constructor
    · rintro ⟨h1, h2, h3, h4⟩
      rw [if_pos ⟨h1, h2⟩, h3]
      exact ⟨rfl, h4⟩
    · rintro ⟨h, h4⟩
      by_cases hb : body ≠ [] ∧ body.all isDecDigit = true
      · rw [if_pos hb] at h
        simp only [Option.some.injEq] at h
        exact ⟨hb.1, hb.2, h, h4⟩
      · rw [if_neg hb] at h
        cases h

theorem parseInt_error_iff (s : GoStr) :
    (∃ k, parseInt s = .error k) ↔ fitsInt64 s = false := by
  unfold fitsInt64
  cases hp : parseInt s with
  | ok v =>
    obtain ⟨h1, h2⟩ := (parseInt_ok_iff s v).mp hp
    simp [h1, h2]
  | error k =>
    cases hd : decimalInt s with
    | none => simp
    | some v =>
      have hnot : ¬ isInt64 v := by
        intro hi
        rw [(parseInt_ok_iff s v).mpr ⟨hd, hi⟩] at hp
        cases hp
      simp [hnot]

/-! ## `checkExpire` decides on the first marker -/

theorem first_marker_split (parts : List GoStr)
    (h : parts.any (fun part => stringsHasPrefix part "k=".toList) = true) :
    ∃ pre part post, parts = pre ++ part :: post ∧
      (∀ p ∈ pre, stringsHasPrefix p "k=".toList = false) ∧
      stringsHasPrefix part "k=".toList = true := by
  induction parts with
  | nil => simp at h
  | cons p rest ih =>
    by_cases hp : stringsHasPrefix p "k=".toList = true
    · exact ⟨[], p, rest, rfl, ⟨fun q hq => absurd hq (List.not_mem_nil q), hp⟩⟩
    · have hp2 : stringsHasPrefix p "k=".toList = false := by simpa using hp
      simp only [List.any_cons, hp2, Bool.false_or] at h
      obtain ⟨pre, part, post, he, hpre, hpart⟩ := ih h
      refine ⟨p :: pre, part, post, by rw [he]; rfl, ?_, hpart⟩
      intro q hq
      rcases List.mem_cons.mp hq with rfl | hq2
      · exact hp2
      · exact hpre q hq2

/-- The result of `checkExpire` on a payload whose first field starting with
`k=` is `part`. -/
theorem checkExpireParts_first (pre post : List GoStr) (part : GoStr)
    (hpre : ∀ p ∈ pre, stringsHasPrefix p "k=".toList = false)
    (hpart : stringsHasPrefix part "k=".toList = true) :
    checkExpireParts (pre ++ part :: post) =
      match parseInt (part.drop 2) with
      | .error k => .error (.numError (part.drop 2) k)
      | .ok v => .ok (timeUnix v) := by
  have htrim : stringsTrimPrefix part "k=".toList = part.drop 2 := by
    unfold stringsTrimPrefix
    rw [if_pos hpart]
    rfl
  rw [checkExpireParts_skip pre _ hpre, checkExpireParts.eq_2, if_pos hpart, htrim]

/-- C16: `checkExpire` returns an error exactly when the payload has a field
starting with `k=` and the text after `k=` in the first such field is no
base-10 integer that fits in 64 signed bits; the outcome is fixed by that
first field, whatever follows it: the integer `v` gives `time.Unix(v, 0)`,
any other text the `ParseInt` error on that text; and a payload without such
a field gives the zero time and no error. -/
theorem checkExpire_first_marker (cert : GoStr) :
    ((∃ e, checkExpire cert = .error e) ↔
      ∃ pre part post, stringsSplit cert ';' = pre ++ part :: post ∧
        (∀ p ∈ pre, stringsHasPrefix p "k=".toList = false) ∧
        stringsHasPrefix part "k=".toList = true ∧ fitsInt64 (part.drop 2) = false) ∧
    (hasMarker cert = false → checkExpire cert = .ok Time.zero) ∧
    (∀ pre part post, stringsSplit cert ';' = pre ++ part :: post →
      (∀ p ∈ pre, stringsHasPrefix p "k=".toList = false) →
      stringsHasPrefix part "k=".toList = true →
      (∀ v, decimalInt (part.drop 2) = some v → isInt64 v →
        checkExpire cert = .ok (timeUnix v)) ∧
      (fitsInt64 (part.drop 2) = false →
        ∃ k, checkExpire cert = .error (.numError (part.drop 2) k))) := by
  have hthird : ∀ pre part post, stringsSplit cert ';' = pre ++ part :: post →
      (∀ p ∈ pre, stringsHasPrefix p "k=".toList = false) →
      stringsHasPrefix part "k=".toList = true →
      (∀ v, decimalInt (part.drop 2) = some v → isInt64 v →
        checkExpire cert = .ok (timeUnix v)) ∧
      (fitsInt64 (part.drop 2) = false →
        ∃ k, checkExpire cert = .error (.numError (part.drop 2) k)) := by
    intro pre part post hs hpre hpart
    have hc : checkExpire cert = checkExpireParts (pre ++ part :: post) := by
      unfold checkExpire; rw [hs]
    rw [hc, checkExpireParts_first pre post part hpre hpart]
    constructor
    · intro v hv hi
      rw [(parseInt_ok_iff _ v).mpr ⟨hv, hi⟩]
    · intro hf
      obtain ⟨k, hk⟩ := (parseInt_error_iff _).mpr hf
      exact ⟨k, by rw [hk]⟩
  refine ⟨?_, checkExpire_no_marker cert, hthird⟩
  constructor
  · rintro ⟨e, he⟩
    cases hm : hasMarker cert with
    | false =>
      rw [checkExpire_no_marker cert hm] at he
      cases he
    | true =>
      obtain ⟨pre, part, post, hs, hpre, hpart⟩ := first_marker_split _ hm
      refine ⟨pre, part, post, hs, hpre, hpart, ?_⟩
      have hc : checkExpire cert = checkExpireParts (pre ++ part :: post) := by
        unfold checkExpire; rw [hs]
      rw [hc, checkExpireParts_first pre post part hpre hpart] at he
      apply (parseInt_error_iff _).mp
      cases hp : parseInt (part.drop 2) with
      | error k => exact ⟨k, rfl⟩
      | ok v => rw [hp] at he; cases he
  · rintro ⟨pre, part, post, hs, hpre, hpart, hf⟩
    obtain ⟨k, hk⟩ := (hthird pre part post hs hpre hpart).2 hf
    exact ⟨_, hk⟩

/-- C16 at concrete payloads: a later valid marker does not repair a bad first
one, a later bad marker does not spoil a good first one, and empty, non-digit
and out-of-range texts are errors. -/
theorem checkExpire_first_marker_witness :
    checkExpire "a=1;k=12x;k=5".toList = .error (.numError "12x".toList .errSyntax) ∧
    checkExpire "x;k=5;k=bad".toList = .ok (timeUnix 5) ∧
    checkExpire "k=;v=1".toList = .error (.numError [] .errSyntax) ∧
    checkExpire "k=9223372036854775808".toList
      = .error (.numError "9223372036854775808".toList .errRange) ∧
    checkExpire "k=-9223372036854775808".toList = .ok (timeUnix (-9223372036854775808)) ∧
    fitsInt64 "12x".toList = false ∧ fitsInt64 [] = false ∧
    fitsInt64 "9223372036854775808".toList = false ∧ fitsInt64 "+5".toList = true ∧
    ((∃ e, checkExpire "a=1;k=12x;k=5".toList = .error e) ↔
      ∃ pre part post, stringsSplit "a=1;k=12x;k=5".toList ';' = pre ++ part :: post ∧
        (∀ p ∈ pre, stringsHasPrefix p "k=".toList = false) ∧
        stringsHasPrefix part "k=".toList = true ∧ fitsInt64 (part.drop 2) = false) :=
  ⟨by decide, by decide, by decide, by decide, by decide, by decide, by decide, by decide,
    by decide, (checkExpire_first_marker "a=1;k=12x;k=5".toList).1⟩

/-! ## The user-directory client -/

theorem StrMap.get_append (pre m : StrMap) (key : GoStr) (h : key ∉ pre.keys) :
    (pre ++ m).get key = m.get key := by
  induction pre with
  | nil => rfl
  | cons e rest ih =>
    obtain ⟨k, v⟩ := e
    simp only [StrMap.keys, List.map_cons, List.mem_cons, not_or] at h
    have hk : ¬ k = key := fun e => h.1 e.symm
    rw [List.cons_append, StrMap.get, if_neg hk]
    exact ih h.2

theorem StrMap.set_append (pre m : StrMap) (key val : GoStr) (h : key ∉ pre.keys) :
    (pre ++ m).set key val = pre ++ m.set key val := by
  induction pre with
  | nil => rfl
  | cons e rest ih =>
    obtain ⟨k, v⟩ := e
    simp only [StrMap.keys, List.map_cons, List.mem_cons, not_or] at h
    have hk : ¬ k = key := fun e => h.1 e.symm
    rw [List.cons_append, StrMap.set, if_neg hk, ih h.2]
    rfl

theorem StrMap.nodup_head (pre rest : StrMap) (k v : GoStr)
    (h : (pre ++ (k, v) :: rest).keys.Nodup) : k ∉ pre.keys := by
  simp only [StrMap.keys, List.map_append, List.map_cons] at h ⊢
  intro hk
  have := (List.nodup_append.mp h).2.2
  exact this hk (List.mem_cons_self _ _)

theorem StrMap.nodup_shift (pre rest : StrMap) (k v b : GoStr)
    (h : (pre ++ (k, v) :: rest).keys.Nodup) : ((pre ++ [(k, b)]) ++ rest).keys.Nodup := by
  simp only [StrMap.keys, List.map_append, List.map_cons, List.map_nil, List.append_assoc,
    List.singleton_append] at h ⊢
  exact h

/-- The loop on a map all of whose remaining values decode. -/
theorem rangeDecode_all (decode : GoStr → Except GoError GoStr) (todo : StrMap) :
    ∀ pre : StrMap, (pre ++ todo).keys.Nodup →
      (∀ e ∈ todo, ∃ b, decode e.2 = .ok b) →
      rangeDecode decode todo.keys (pre ++ todo)
        = .ok (pre ++ todo.map (fun e => (e.1, decodedValue decode e.2))) := by
  induction todo with
  | nil => intro pre _ _; rfl
  | cons e rest ih =>
    intro pre hnd hall
    obtain ⟨k, v⟩ := e
    obtain ⟨b, hb⟩ := hall (k, v) (List.mem_cons_self _ _)
    have hk := StrMap.nodup_head pre rest k v hnd
    have hget : (pre ++ (k, v) :: rest).get k = some v := by
      rw [StrMap.get_append _ _ _ hk, StrMap.get, if_pos rfl]
    have hset : (pre ++ (k, v) :: rest).set k b = (pre ++ [(k, b)]) ++ rest := by
      rw [StrMap.set_append _ _ _ _ hk, StrMap.set, if_pos rfl, List.append_assoc]
      rfl
    have hkeys : StrMap.keys ((k, v) :: rest) = k :: StrMap.keys rest := rfl
    rw [hkeys, rangeDecode, hget]
    simp only [hb]
    rw [hset, ih (pre ++ [(k, b)]) (StrMap.nodup_shift pre rest k v b hnd)
      (fun e he => hall e (List.mem_cons_of_mem _ he))]
    simp only [List.map_cons, decodedValue, hb, List.append_assoc, List.singleton_append]

/-- The loop on a map one of whose remaining values does not decode. -/
theorem rangeDecode_some_bad (decode : GoStr → Except GoError GoStr) (todo : StrMap) :
    ∀ pre : StrMap, (pre ++ todo).keys.Nodup →
      (∃ e ∈ todo, ∃ err, decode e.2 = .error err) →
      ∃ err, rangeDecode decode todo.keys (pre ++ todo) = .error err := by
  induction todo with
  | nil => intro pre _ h; obtain ⟨e, he, _⟩ := h; cases he
  | cons e rest ih =>
    intro pre hnd hbad
    obtain ⟨k, v⟩ := e
    have hk := StrMap.nodup_head pre rest k v hnd
    have hget : (pre ++ (k, v) :: rest).get k = some v := by
      rw [StrMap.get_append _ _ _ hk, StrMap.get, if_pos rfl]
    have hkeys : StrMap.keys ((k, v) :: rest) = k :: StrMap.keys rest := rfl
    rw [hkeys, rangeDecode, hget]
    simp only
    cases hd : decode v with
    | error err => exact ⟨err, rfl⟩
    | ok b =>
      simp only
      have hset : (pre ++ (k, v) :: rest).set k b = (pre ++ [(k, b)]) ++ rest := by
        rw [StrMap.set_append _ _ _ _ hk, StrMap.set, if_pos rfl, List.append_assoc]
        rfl
      rw [hset]
      apply ih (pre ++ [(k, b)]) (StrMap.nodup_shift pre rest k v b hnd)
      obtain ⟨e, he, err, herr⟩ := hbad
      rcases List.mem_cons.mp he with rfl | hmem
      · rw [hd] at herr; cases herr
      · exact ⟨e, hmem, err, herr⟩

/-- C17: once the request is built and answered, `doRequest` decodes all or
nothing: a status other than 200 gives a nil map and the error `Error:
response status <code>`; for a 200 answer that decodes to a map of strings,
when every value is valid base64 the result is the map with the same keys and
every value replaced by its decoding, with a nil error, and when some value is
not valid base64 the result is a nil map and an error. -/
theorem doRequest_all_or_nothing (u : Udb) (w : UdbWorld) (method url cookie : GoStr)
    (body : Option GoStr) (cert : GoStr) (res : UdbResponse)
    (hreq : w.newRequestErr method url = none) (hcert : u.yca u.appID = .ok cert)
    (hdo : w.httpDo { method := method, url := url, body := body,
                      header := udbHeader cert cookie } = .ok res) :
    (res.StatusCode ≠ 200 →
      doRequest u w method url cookie body
        = (none, some (.other ("Error: response status ".toList ++ intDec res.StatusCode)))) ∧
    (∀ data, res.StatusCode = 200 → res.decoded = .ok data → data.keys.Nodup →
      ((∀ e ∈ data, ∃ b, w.decodeString e.2 = .ok b) →
        doRequest u w method url cookie body
            = (some (data.map (fun e => (e.1, decodedValue w.decodeString e.2))), none) ∧
          StrMap.keys (data.map (fun e => (e.1, decodedValue w.decodeString e.2))) = data.keys ∧
          ∀ e ∈ data, w.decodeString e.2 = .ok (decodedValue w.decodeString e.2)) ∧
      ((∃ e ∈ data, ∃ err, w.decodeString e.2 = .error err) →
        ∃ err, doRequest u w method url cookie body = (none, some err))) := by
  have hdo2 := hdo
  simp only [udbHeader] at hdo2
  constructor
  · intro hcode
    simp only [doRequest, hreq, hcert, hdo2]
    rw [if_pos hcode]
  · intro data hcode hdec hnd
    constructor
    · intro hall
      have hloop := rangeDecode_all w.decodeString data [] hnd hall
      simp only [List.nil_append] at hloop
      refine ⟨?_, ?_, ?_⟩
      · simp only [doRequest, hreq, hcert, hdo2]
        rw [if_neg (not_not.mpr hcode)]
        simp only [hdec, hloop]
      · simp only [StrMap.keys, List.map_map]
        rfl
      · intro e he
        obtain ⟨b, hb⟩ := hall e he
        simp only [decodedValue, hb]
    · intro hbad
      obtain ⟨err, herr⟩ := rangeDecode_some_bad w.decodeString data [] hnd hbad
      simp only [List.nil_append] at herr
      refine ⟨err, ?_⟩
      simp only [doRequest, hreq, hcert, hdo2]
      rw [if_neg (not_not.mpr hcode)]
      simp only [hdec, herr]

/-- C17 at concrete inputs: a 200 answer with two base64 values, a 200 answer
with one value that is not base64, and a 503 answer. -/
theorem doRequest_all_or_nothing_witness :
    GetByGUID testUdb (UdbWorld.answering 200 (.ok validDirectoryDoc)) "guid-1".toList
      = (some [("name".toList, "hello".toList), ("mail".toList, "world".toList)], none) ∧
    GetByGUID testUdb (UdbWorld.answering 200 (.ok brokenDirectoryDoc)) "guid-1".toList
      = (none, some (.other "illegal base64 data at input byte 0".toList)) ∧
    doRequest testUdb (UdbWorld.answering 503 (.ok validDirectoryDoc)) MethodGet
        "https://udb.example:4443/v1/users/guid-1?fields=name,mail".toList [] none
      = (none, some (.other "Error: response status 503".toList)) :=
  ⟨by decide, by decide,
    ((doRequest_all_or_nothing testUdb (UdbWorld.answering 503 (.ok validDirectoryDoc)) MethodGet
      "https://udb.example:4443/v1/users/guid-1?fields=name,mail".toList [] none
      "yca-cert".toList { StatusCode := 503, decoded := .ok validDirectoryDoc } rfl rfl rfl).1
      (by decide)).trans (by decide)⟩

end Sidecar
